import Mathlib

/-!
Verification of the udapi-python annotation core.

A shallow embedding of the repository's data model and operations:

* `FixEdeprels.set_basic_and_enhanced` and `FixEdeprels.process_node`
  (src/udapi/block/ud/lt/fixedeprels.py),
* `FixGSD.merge_reduplicated_plural` (src/udapi/block/ud/id/fixgsd.py),
* `Document.__init__` dispatch and the CoNLL-U string codec
  (src/udapi/core/document.py),
* the tree invariants of the core Node/Tree model.

Python strings are embedded as lists of Unicode code points (`PStr`), so
string equality, concatenation and slicing are exact.  Node references are
embedded as ordinal identifiers (`Nat`), with `0` for the root sentinel.
-/

set_option maxRecDepth 4000

/-- A Python string: the list of its code points. -/
abbrev PStr := List Char

/-- Code-point list of a Lean string literal. -/
def ps (s : String) : PStr := s.data

/-- `chDrop? p s` removes the leading occurrence of `p` from `s`, if `s`
starts with `p`. -/
def chDrop? : PStr → PStr → Option PStr
  | [], s => some s
  | _ :: _, [] => none
  | a :: as, b :: bs => if a = b then chDrop? as bs else none

/-- Whether `s` starts with `p`. -/
def chStarts (p s : PStr) : Bool := (chDrop? p s).isSome

/-- Whether `s` ends with `suf` (Python `str.endswith`). -/
def chEnds (suf s : PStr) : Bool := chStarts suf.reverse s.reverse

namespace FixEdeprels

/-- One entry of `node.deps` (an enhanced-graph edge): the enhanced parent,
identified by its ordinal, and the enhanced relation. -/
structure Edep where
  parent : Nat
  deprel : PStr
deriving DecidableEq

/-- The attributes of a node read and written by `set_basic_and_enhanced`
(fixedeprels.py lines 123-139): the basic parent, the basic relation and the
enhanced-edge list. -/
structure NodeCore where
  parent : Nat
  deprel : PStr
  deps : List Edep
deriving DecidableEq

/-- `FixEdeprels.set_basic_and_enhanced` (fixedeprels.py lines 123-139):
remembers the old basic parent, reassigns parent and deprel, drops every
`deps` entry whose parent is the old basic parent, and appends the new
enhanced edge.  (The cycle check performed by the core parent setter is
modelled separately in `TreeModel`; this definition captures the attribute
updates of the successful path.) -/
def set_basic_and_enhanced (node : NodeCore) (parent : Nat) (deprel edeprel : PStr) :
    NodeCore :=
  let old_parent := node.parent
  { parent := parent
    deprel := deprel
    deps := (node.deps.filter (fun x => x.parent != old_parent)) ++
      [{ parent := parent, deprel := edeprel }] }

end FixEdeprels

namespace TreeModel

/-- Modelled from the spec: the basic tree of one sentence (§3).  Nodes are
identified by `1, …, t.length`; entry `i - 1` of the list is the parent of
node `i`, with `0` denoting the implicit root sentinel.  The core Node/Tree
classes (udapi.core.node) are not under src/. -/
abbrev Parents := List Nat

/-- Basic parent of node `n` (the root sentinel `0`, and any identifier
outside the tree, is mapped to `0`). -/
def parentOf (t : Parents) (n : Nat) : Nat :=
  if n = 0 then 0 else (t[n - 1]?).getD 0

/-- `pclimb t k n`: climb `k` basic-parent steps up from node `n`. -/
def pclimb (t : Parents) : Nat → Nat → Nat
  | 0, a => a
  | k + 1, a => pclimb t k (parentOf t a)

/-- Modelled from the spec: `is_descendant_of(a, b)` — the O(depth) walk from
`a` up to `b` (§4.1), bounded by the number of nodes, which on an acyclic
tree covers every ancestor chain. -/
def is_descendant_of (t : Parents) (a b : Nat) : Bool :=
  (List.range (t.length + 1)).any (fun k => pclimb t (k + 1) a == b)

/-- Modelled from the spec: the error taxonomy of §7 relevant to mutation. -/
inductive MutationError
  | cycleError
  | invalidReference
deriving DecidableEq

/-- Modelled from the spec: `set_parent(node, new_parent)` (§4.1) — fails with
`CycleError` if `new_parent` is `node` itself or a descendant of `node`;
on success updates the ownership edge and nothing else.  Arguments must be
nodes of this tree (`new_parent` may be the root sentinel `0`), which the
Python API guarantees by construction and is modelled here as an
`InvalidReferenceError` guard.  `FixEdeprels.set_basic_and_enhanced` changes
the basic tree only through this setter (fixedeprels.py line 133). -/
def set_parent (t : Parents) (node newp : Nat) : Except MutationError Parents :=
  if node = 0 ∨ t.length < node ∨ t.length < newp then .error .invalidReference
  else if newp = node ∨ is_descendant_of t newp node then .error .cycleError
  else .ok (t.set (node - 1) newp)

/-- Every stored parent identifier refers to a node of the tree or to the
root sentinel. -/
def ValidParents (t : Parents) : Prop := ∀ v ∈ t, v ≤ t.length

/-- No node is its own (proper) ancestor. -/
def Acyclic (t : Parents) : Prop := ∀ n, n ≠ 0 → ∀ k, pclimb t (k + 1) n ≠ n

/-- A sequence of reparent operations: each is attempted with `set_parent`;
a failing operation leaves the tree unchanged. -/
def reparentOps (t : Parents) : List (Nat × Nat) → Parents
  | [] => t
  | op :: rest =>
    match set_parent t op.1 op.2 with
    | .ok t2 => reparentOps t2 rest
    | .error _ => reparentOps t rest

end TreeModel

namespace FixGSD

/-- A node of one tree as seen by `FixGSD.merge_reduplicated_plural`
(fixgsd.py lines 86-113): identified by its `ord`; `parent` is the parent's
`ord` (`0` for the root).  `feats` and `misc` are ordered attribute maps. -/
structure GNode where
  ord : Nat
  form : PStr
  lemma_ : PStr
  upos : PStr
  deprel : PStr
  parent : Nat
  feats : List (PStr × PStr)
  misc : List (PStr × PStr)
deriving DecidableEq

/-- One sentence: its nodes in `ord` order, and the stored sentence text. -/
structure GTree where
  nodes : List GNode
  text : PStr
deriving DecidableEq

/-- Value of key `k` in an ordered attribute map, the empty string when the
key is absent (udapi returns `''` for a missing FEATS/MISC key). -/
def lookupPair (k : PStr) : List (PStr × PStr) → PStr
  | [] => []
  | p :: rest => if p.1 = k then p.2 else lookupPair k rest

/-- Modelled from the spec: assignment into an ordered attribute map
(§3, §9 dynamic attribute bags): a non-empty value replaces the existing
entry in place or is appended; assigning the empty string deletes the key. -/
def setPair (k v : PStr) : List (PStr × PStr) → List (PStr × PStr)
  | [] => if v = [] then [] else [(k, v)]
  | p :: rest =>
    if p.1 = k then (if v = [] then rest else (k, v) :: rest)
    else p :: setPair k v rest

/-- Modelled from the spec: `node.no_space_after` — the node's metadata marks
"no space after" (§3), i.e. `misc["SpaceAfter"] == "No"`. -/
def no_space_after (n : GNode) : Bool := lookupPair (ps ("SpaceAfter")) n.misc == ps ("No")

/-- Modelled from the spec: `root.compute_text()` (§3) — concatenate the
forms in `ord` order, inserting a single space unless the preceding token
marks "no space after". -/
def computeText : List GNode → PStr
  | [] => []
  | [n] => n.form
  | n :: rest => n.form ++ (if no_space_after n then [] else [' ']) ++ computeText rest

/-- Python `str.lower()`, modelled code-point-wise. -/
def lowerP (s : PStr) : PStr := s.map Char.toLower

/-- The node of the tree carrying ordinal `o`. -/
def findNode (t : List GNode) (o : Nat) : Option GNode :=
  t.find? (fun n => n.ord == o)

/-- Parent ordinal of the node with ordinal `o` (`0` when absent). -/
def gparent (t : List GNode) (o : Nat) : Nat :=
  match findNode t o with
  | some n => n.parent
  | none => 0

/-- Climb `k` parent steps in the ord-keyed graph. -/
def gclimb (t : List GNode) : Nat → Nat → Nat
  | 0, a => a
  | k + 1, a => gclimb t k (gparent t a)

/-- Modelled from the spec: `is_descendant_of` on the ord-keyed tree
(§4.1), as in `TreeModel.is_descendant_of`. -/
def gIsDescendantOf (t : List GNode) (a b : Nat) : Bool :=
  (List.range (t.length + 1)).any (fun k => gclimb t (k + 1) a == b)

/-- The linking-token forms accepted by fixgsd.py line 94
(`re.match(r"^(-|–|--)$", hyph.form)`). -/
def isHyphenForm (s : PStr) : Bool :=
  s == ps ("-") || s == ps ("–") || s == ps ("--")

/-- The mutation block of `merge_reduplicated_plural` (fixgsd.py lines
97-113), reached once all preconditions hold: reparent the children of the
linking token and of `nd` onto `first`; concatenate the forms with `"-"`;
set `Number=Plur`; copy `nd`'s SpaceAfter flag (deleting it when `nd` had a
space); remove the linking token and `nd` (both are childless after the
reparenting, so udapi's subtree `remove()` drops exactly the node); finally
recompute the stored sentence text.  `mReparent` is the child-reparenting
step (fixgsd.py lines 97-100). -/
def mReparent (nd first hyph : GNode) (c : GNode) : GNode :=
  if c.parent == hyph.ord || c.parent == nd.ord then { c with parent := first.ord }
  else c

/-- The in-place update of the first conjunct (fixgsd.py lines 102-107). -/
def mUpdate (nd first : GNode) (c : GNode) : GNode :=
  if c.ord == first.ord then
    { c with form := c.form ++ ps ("-") ++ nd.form
             feats := setPair (ps ("Number")) (ps ("Plur")) c.feats
             misc := setPair (ps ("SpaceAfter"))
               (if no_space_after nd then ps ("No") else []) c.misc }
  else c

/-- Survival of a node after the two removals (fixgsd.py lines 108-109). -/
def mKeep (nd hyph : GNode) (c : GNode) : Bool :=
  c.ord != hyph.ord && c.ord != nd.ord

def mergeAct (t : GTree) (nd first hyph : GNode) : GTree :=
  let ns3 := ((t.nodes.map (mReparent nd first hyph)).map (mUpdate nd first)).filter
    (mKeep nd hyph)
  { nodes := ns3, text := computeText ns3 }

/-- `FixGSD.merge_reduplicated_plural` (fixgsd.py lines 86-113), acting on
the node with ordinal `o`.  All failing preconditions return the tree
unchanged (the Python method simply falls through).  A `parent` ordinal
that designates no node (in particular the root sentinel `0`, which is
never a mergeable first conjunct) stops the merge. -/
def merge_reduplicated_plural (t : GTree) (o : Nat) : GTree :=
  match findNode t.nodes o with
  | none => t
  | some nd =>
    if nd.deprel == ps ("compound:plur") then
      match findNode t.nodes nd.parent with
      | none => t
      | some first =>
        if first.ord == nd.ord - 2 && lowerP first.form == lowerP nd.form then
          match findNode t.nodes (nd.ord - 1) with
          | none => t
          | some hyph =>
            if gIsDescendantOf t.nodes hyph.ord first.ord && isHyphenForm hyph.form then
              mergeAct t nd first hyph
            else t
        else t
    else t

/-- The precondition cascade of `merge_reduplicated_plural`: true exactly
when the merge is performed. -/
def mergeFires (t : GTree) (o : Nat) : Bool :=
  match findNode t.nodes o with
  | none => false
  | some nd =>
    nd.deprel == ps ("compound:plur") &&
    (match findNode t.nodes nd.parent with
     | none => false
     | some first =>
       (first.ord == nd.ord - 2 && lowerP first.form == lowerP nd.form) &&
       (match findNode t.nodes (nd.ord - 1) with
        | none => false
        | some hyph =>
          gIsDescendantOf t.nodes hyph.ord first.ord && isHyphenForm hyph.form))

/-- Concatenation of the forms of a node list (taken in list = `ord` order). -/
def concatForms (l : List GNode) : PStr := (l.map (fun n => n.form)).flatten

/-- Example: the first conjunct of a reduplicated plural (`buku`). -/
def exFirst : GNode :=
  ⟨1, ps ("buku"), ps ("buku"), ps ("NOUN"), ps ("root"), 0, [], []⟩

/-- Example: the linking hyphen token between the two conjuncts. -/
def exHyph : GNode :=
  ⟨2, ps ("-"), ps ("-"), ps ("PUNCT"), ps ("punct"), 3, [], []⟩

/-- Example: the second conjunct, attached as `compound:plur`. -/
def exNd : GNode :=
  ⟨3, ps ("buku"), ps ("buku"), ps ("NOUN"), ps ("compound:plur"), 1, [], []⟩

/-- Example tree `buku - buku` with an ASCII hyphen: the merge fires. -/
def exGood : GTree := ⟨[exFirst, exHyph, exNd], ps ("buku - buku")⟩

/-- Example tree with an en-dash linking token: the merge fires but the
linking token is replaced by an ASCII hyphen in the merged form. -/
def exDash : GTree :=
  ⟨[exFirst, { exHyph with form := ps ("–") }, exNd], ps ("buku – buku")⟩

/-- Example tree whose intermediate token is not a hyphen: preconditions
unmet. -/
def exBad : GTree :=
  ⟨[exFirst, { exHyph with form := ps ("x") }, exNd], ps ("buku x buku")⟩

end FixGSD

namespace FixEdeprels

/-- A node as read by `FixEdeprels.process_node` (fixedeprels.py lines
53-121): all the CoNLL-U attributes plus the enhanced-edge list. -/
structure FNode where
  ord : Nat
  form : PStr
  lemma_ : PStr
  upos : PStr
  xpos : PStr
  feats : List (PStr × PStr)
  misc : List (PStr × PStr)
  deprel : PStr
  parent : Nat
  deps : List Edep
deriving DecidableEq

/-- Value of key `k` in an ordered attribute map, `''` when absent. -/
def featsGet (k : PStr) : List (PStr × PStr) → PStr
  | [] => []
  | p :: rest => if p.1 = k then p.2 else featsGet k rest

/-- Python `str.lower()`, code-point-wise. -/
def lowerL (s : PStr) : PStr := s.map Char.toLower

/-- The children of the node with ordinal `o` (in tree order). -/
def childrenOf (t : List FNode) (o : Nat) : List FNode :=
  t.filter (fun c => c.parent == o)

/-- `FixEdeprels.copy_case_from_adposition` (fixedeprels.py lines 53-64):
among the node's children with the given lemma, take the first; if its
`Case` feature is non-empty, return `adposition:case_lowercased`. -/
def copy_case_from_adposition (children : List FNode) (adposition : PStr) :
    Option PStr :=
  match children.filter (fun x => x.lemma_ == adposition) with
  | [] => none
  | c :: _ =>
    if featsGet (ps ("Case")) c.feats != [] then
      some (adposition ++ ps (":") ++ lowerL (featsGet (ps ("Case")) c.feats))
    else none

/-!
The regular expressions of `process_node` are embedded as explicit
code-point matching.  The alternation `(obl(?::arg)?|nmod|advcl|acl(?::relcl)?)`
followed by `:` is matched by trying the prefixes `obl:arg:`, `obl:`,
`nmod:`, `advcl:`, `acl:relcl:`, `acl:` in this order; this reproduces the
regex engine's backtracking because no continuation literal in this block
starts with `arg` or `relcl`, so a failed longer alternative can never
succeed through the shorter one.
-/

/-- Bases of the big alternation of fixedeprels.py lines 73, 88 and 98. -/
def bigBases : List PStr :=
  [ps ("obl:arg"), ps ("obl"), ps ("nmod"), ps ("advcl"), ps ("acl:relcl"), ps ("acl")]

/-- Split `base : rest` for the first base of `bs` matching `d`. -/
def matchBaseFrom : List PStr → PStr → Option (PStr × PStr)
  | [], _ => none
  | b :: bs, d =>
    match chDrop? (b ++ ps (":")) d with
    | some rest => some (b, rest)
    | none => matchBaseFrom bs d

/-- Whether the deprel matches `^(obl(?::arg)?|nmod|advcl|acl(?::relcl)?):`
(fixedeprels.py line 73). -/
def bigMatchB (d : PStr) : Bool := (matchBaseFrom bigBases d).isSome

/-- `re.sub(r'^advcl:do(?::gen)?$', r'obl:do:gen', d)` (line 81). -/
def subAdvclDo (d : PStr) : PStr :=
  if d == ps ("advcl:do") || d == ps ("advcl:do:gen") then ps ("obl:do:gen") else d

/-- `re.sub(r'^acl:k(?::dat)?$', r'acl', d)` (line 82). -/
def subAclK (d : PStr) : PStr :=
  if d == ps ("acl:k") || d == ps ("acl:k:dat") then ps ("acl") else d

/-- The `outermost` table (fixedeprels.py lines 14-19), in source order:
key and its exception list. -/
def outermost : List (PStr × List PStr) :=
  [(ps ("kaip"), []), (ps ("než"), [ps ("než_aby")]), (ps ("třebaže"), [])]

/-- Whether a suffix matches `[_:].+` (the capture group of line 88). -/
def sufOk : PStr → Bool
  | c :: _ :: _ => c == '_' || c == ':'
  | _ => false

/-- The loop of fixedeprels.py lines 86-92 on the part after `base:`. -/
def outermostLoop (b rest : PStr) : List (PStr × List PStr) → Option PStr
  | [] => none
  | (x, exc) :: tl =>
    match chDrop? x rest with
    | some suf =>
      if sufOk suf && !(exc.contains (x ++ suf)) then some (b ++ ps (":") ++ x)
      else outermostLoop b rest tl
    | none => outermostLoop b rest tl

def outermostApply (d : PStr) : Option PStr :=
  match matchBaseFrom bigBases d with
  | some (b, rest) => outermostLoop b rest outermost
  | none => none

/-- The `unambiguous` table (fixedeprels.py lines 26-51), in source order. -/
def unambiguous : List (PStr × PStr) :=
  [(ps ("apie"), ps ("apie:acc")),
   (ps ("dėl"), ps ("dėl:gen")),
   (ps ("iki"), ps ("iki:gen")),
   (ps ("jei"), ps ("jei")),
   (ps ("jeigu"), ps ("jeigu")),
   (ps ("kaip"), ps ("kaip")),
   (ps ("kaip_į"), ps ("kaip")),
   (ps ("kaip_per"), ps ("kaip")),
   (ps ("kaip_prieš"), ps ("kaip")),
   (ps ("kaip_su"), ps ("kaip")),
   (ps ("nes"), ps ("nes")),
   (ps ("nors"), ps ("nors")),
   (ps ("pagal"), ps ("pagal:acc")),
   (ps ("pagal_dėl"), ps ("pagal:acc")),
   (ps ("per"), ps ("per:acc")),
   (ps ("prie"), ps ("prie:gen")),
   (ps ("tarp"), ps ("tarp:gen")),
   (ps ("aby_na"), ps ("na:loc")),
   (ps ("bez"), ps ("bez:gen")),
   (ps ("bez_ohled_na"), ps ("bez_ohledu_na:acc")),
   (ps ("bez_zřetel_k"), ps ("bez_zřetele_k:dat")),
   (ps ("bez_zřetel_na"), ps ("bez_zřetele_na:acc")),
   (ps ("že_za"), ps ("za:gen"))]

/-- The morphological-case alternation `(?::(?:nom|gen|dat|acc|voc|loc|ins))?`
of fixedeprels.py line 98, as full leftover suffixes. -/
def caseSuffixes7 : List PStr :=
  [ps (":nom"), ps (":gen"), ps (":dat"), ps (":acc"), ps (":voc"), ps (":loc"),
   ps (":ins")]

/-- The loop of fixedeprels.py lines 95-102 on the part after `base:`. -/
def unambLoop (b rest : PStr) : List (PStr × PStr) → Option PStr
  | [] => none
  | (x, v) :: tl =>
    match chDrop? x rest with
    | some suf =>
      if suf == ([] : PStr) || caseSuffixes7.contains suf then
        some (b ++ ps (":") ++ v)
      else unambLoop b rest tl
    | none => unambLoop b rest tl

def unambApply (d : PStr) : Option PStr :=
  match matchBaseFrom bigBases d with
  | some (b, rest) => unambLoop b rest unambiguous
  | none => none

/-- Bases of `(obl(?::arg)?|nmod)` (fixedeprels.py line 108). -/
def uzBases : List PStr := [ps ("obl:arg"), ps ("obl"), ps ("nmod")]

/-- Case endings rejected by the guard of fixedeprels.py line 111. -/
def uzSuffixes4 : List PStr :=
  [ps (":nom"), ps (":gen"), ps (":dat"), ps (":voc")]

def chEndsAny (sufs : List PStr) (s : PStr) : Bool :=
  sufs.any (fun suf => chEnds suf s)

/-- Fixedeprels.py lines 105-113: the `už` rule, consulting the `Case`
feature of an adposition child. -/
def uzApply (children : List FNode) (d : PStr) : Option PStr :=
  match matchBaseFrom uzBases d with
  | some (b, rest) =>
    if rest == ps ("už") ||
        [ps ("už:nom"), ps ("už:gen"), ps ("už:dat"), ps ("už:voc")].contains rest then
      match copy_case_from_adposition children (ps ("už")) with
      | some adpcase =>
        if chEndsAny uzSuffixes4 adpcase then none
        else some (b ++ ps (":") ++ adpcase)
      | none => none
    else none
  | none => none

def aclAdvclBases : List PStr := [ps ("acl"), ps ("advcl")]

/-- Redundant leading conjunction prefixes of fixedeprels.py line 116. -/
def redundantPre11 : List PStr :=
  [ps ("a"), ps ("alespoň"), ps ("až"), ps ("jen"), ps ("hlavně"),
   ps ("například"), ps ("ovšem_teprve"), ps ("protože"), ps ("teprve"),
   ps ("totiž"), ps ("zejména")]

/-- Conjunctions kept by fixedeprels.py lines 116 and 118. -/
def conjs8 : List PStr :=
  [ps ("aby"), ps ("až"), ps ("jestliže"), ps ("když"), ps ("li"),
   ps ("pokud"), ps ("protože"), ps ("že")]

/-- Conjunctions kept by fixedeprels.py line 117 (after `i_`). -/
def conjs5 : List PStr :=
  [ps ("aby"), ps ("až"), ps ("jestliže"), ps ("li"), ps ("pokud")]

/-- Trailing particles removed by fixedeprels.py line 118. -/
def tails5 : List PStr :=
  [ps ("ale"), ps ("tedy"), ps ("totiž"), ps ("už"), ps ("však")]

/-- `^(acl|advcl):(?:P)_(C)$ → \1:\2`: drop a redundant prefix before a
conjunction (fixedeprels.py lines 116-117). -/
def subPreConjLoop (b rest : PStr) (conjs : List PStr) : List PStr → Option PStr
  | [] => none
  | p :: ptl =>
    match chDrop? (p ++ ps ("_")) rest with
    | some c =>
      if conjs.contains c then some (b ++ ps (":") ++ c)
      else subPreConjLoop b rest conjs ptl
    | none => subPreConjLoop b rest conjs ptl

def subPreConj (pres conjs : List PStr) (d : PStr) : Option PStr :=
  match matchBaseFrom aclAdvclBases d with
  | some (b, rest) => subPreConjLoop b rest conjs pres
  | none => none

/-- `^(acl|advcl):(C)_(?:T)$ → \1:\2`: drop a trailing particle after a
conjunction (fixedeprels.py line 118). -/
def subConjTailLoop (b rest : PStr) : List PStr → Option PStr
  | [] => none
  | c :: ctl =>
    match chDrop? (c ++ ps ("_")) rest with
    | some tl =>
      if tails5.contains tl then some (b ++ ps (":") ++ c)
      else subConjTailLoop b rest ctl
    | none => subConjTailLoop b rest ctl

def subConjTail (d : PStr) : Option PStr :=
  match matchBaseFrom aclAdvclBases d with
  | some (b, rest) => subConjTailLoop b rest conjs8
  | none => none

/-- Bases of `(nmod|obl(:arg)?)` (fixedeprels.py lines 119-121). -/
def nmodOblBases : List PStr := [ps ("nmod"), ps ("obl:arg"), ps ("obl")]

/-- `^(nmod|obl(:arg)?):ať:.+$ → \1:ať` (fixedeprels.py line 120). -/
def subAt? (d : PStr) : Option PStr :=
  match matchBaseFrom nmodOblBases d with
  | some (b, rest) =>
    match chDrop? (ps ("ať:")) rest with
    | some tl => if tl != ([] : PStr) then some (b ++ ps (":ať")) else none
    | none => none
  | none => none

/-- `^(nmod|obl(:arg)?):beyond([_:].+)?$ → \1` (fixedeprels.py line 121). -/
def subBeyond? (d : PStr) : Option PStr :=
  match matchBaseFrom nmodOblBases d with
  | some (b, rest) =>
    match chDrop? (ps ("beyond")) rest with
    | some suf => if suf == ([] : PStr) || sufOk suf then some b else none
    | none => none
  | none => none

/-- Apply an optional rewrite, keeping the input when it does not fire
(Python `re.sub` semantics). -/
def applyOr (f : PStr → Option PStr) (d : PStr) : PStr := (f d).getD d

/-- Fixedeprels.py lines 114-121: the substitutions applied to every
enhanced relation that was not `continue`d past. -/
def tailRules (d : PStr) : PStr :=
  if chStarts (ps ("acl:")) d || chStarts (ps ("advcl:")) d then
    applyOr subConjTail
      (applyOr (subPreConj [ps ("i")] conjs5)
        (applyOr (subPreConj redundantPre11 conjs8) d))
  else if chStarts (ps ("nmod:")) d || chStarts (ps ("obl:")) d then
    applyOr subBeyond? (applyOr subAt? d)
  else d

/-- The transformation applied by `process_node` (fixedeprels.py lines
72-121) to one enhanced relation of the node, given the node's children:
when the relation matches the big alternation, the early fixes of lines
81-82 are applied and then the `outermost`, `unambiguous` and `už` rules
each `continue` to the next relation on success; any relation not disposed
of by a `continue` receives the tail substitutions of lines 114-121. -/
def processDeprel (children : List FNode) (d : PStr) : PStr :=
  if bigMatchB d then
    match outermostApply (subAclK (subAdvclDo d)) with
    | some d3 => d3
    | none =>
      match unambApply (subAclK (subAdvclDo d)) with
      | some d3 => d3
      | none =>
        match uzApply children (subAclK (subAdvclDo d)) with
        | some d3 => d3
        | none => tailRules (subAclK (subAdvclDo d))
  else tailRules d

/-- `FixEdeprels.process_node` on one node: rewrite the `deprel` of every
entry of `node.deps` with `processDeprel` under the node's children. -/
def process_node (t : List FNode) (n : FNode) : FNode :=
  { n with deps := n.deps.map (fun e =>
      { e with deprel := processDeprel (childrenOf t n.ord) e.deprel }) }

/-- `process_node` applied to the node of the tree with ordinal `o` (the
block driver invokes the hook once per node; only that node is written). -/
def process_node_at (t : List FNode) (o : Nat) : List FNode :=
  t.map (fun n => if n.ord == o then process_node t n else n)

end FixEdeprels

/-- Split a list at every occurrence of `sep`; always returns at least one
chunk, and `k` separators yield `k + 1` chunks. -/
def splitSep {α : Type} [DecidableEq α] (sep : α) : List α → List (List α)
  | [] => [[]]
  | a :: rest =>
    match splitSep sep rest with
    | hd :: tl => if a = sep then [] :: hd :: tl else (a :: hd) :: tl
    | [] => if a = sep then [[], []] else [[a]]

/-- Interleave `sep` between chunks (left inverse of `splitSep`). -/
def joinS {α : Type} (sep : α) : List (List α) → List α
  | [] => []
  | [x] => x
  | x :: y :: tl => x ++ sep :: joinS sep (y :: tl)

/-- `List.mapM` over `Option`, written with plain recursion. -/
def optMapM {α β : Type} (g : α → Option β) : List α → Option (List β)
  | [] => some []
  | a :: xs =>
    match g a with
    | some b =>
      match optMapM g xs with
      | some bs => some (b :: bs)
      | none => none
    | none => none

namespace Conllu

/-!
Modelled from the spec: the CoNLL-U codec of §4.2 (udapi.block.read.conllu
and udapi.block.write.conllu are not under src/; `Document.from_conllu_string`
and `Document.to_conllu_string` in src/udapi/core/document.py delegate to
them).  Text is a code-point list; a document is sentence blocks separated
by blank lines; a token line has ten tab-separated fields; `_` is the
empty-value placeholder; FEATS serializes its attributes in alphabetic
(code-point) order; DEPS serializes sorted by (head, relation); MISC keeps
insertion order.  Reader failures (wrong field count, non-numeric ID,
out-of-range HEAD, two roots) abort the load (`MalformedLineError`),
modelled as `none`.
-/

/-- A CoNLL-U token identifier: a word ordinal, a multiword-token range
`a-b`, or an empty-node ordinal `a.b`. -/
inductive TokId
  | word : Nat → TokId
  | mwt : Nat → Nat → TokId
  | emptyTok : Nat → Nat → TokId
deriving DecidableEq

/-- One enhanced-graph edge of the DEPS column: `head:relation`. -/
structure DepPair where
  head : TokId
  rel : PStr
deriving DecidableEq

/-- One token line: the ten CoNLL-U columns, with `_` decoded to the empty
value. -/
structure CTok where
  tid : TokId
  form : PStr
  lemma_ : PStr
  upos : PStr
  xpos : PStr
  feats : List (PStr × PStr)
  head : Option Nat
  deprel : PStr
  deps : List DepPair
  misc : List (PStr × PStr)
deriving DecidableEq

/-- One sentence block: its comment lines, kept verbatim, then its token
lines. -/
structure CSent where
  comments : List PStr
  toks : List CTok
deriving DecidableEq

/-- A parsed CoNLL-U document. -/
structure CDoc where
  sents : List CSent
deriving DecidableEq

def isDigitCh (c : Char) : Bool :=
  ['0', '1', '2', '3', '4', '5', '6', '7', '8', '9'].contains c

def digitVal (c : Char) : Nat :=
  if c = '1' then 1 else if c = '2' then 2 else if c = '3' then 3
  else if c = '4' then 4 else if c = '5' then 5 else if c = '6' then 6
  else if c = '7' then 7 else if c = '8' then 8 else if c = '9' then 9 else 0

def digitChar (n : Nat) : Char :=
  if n = 1 then '1' else if n = 2 then '2' else if n = 3 then '3'
  else if n = 4 then '4' else if n = 5 then '5' else if n = 6 then '6'
  else if n = 7 then '7' else if n = 8 then '8' else if n = 9 then '9' else '0'

/-- Numeric value of a digit string (Python `int`). -/
def digitsVal (s : PStr) : Nat := s.foldl (fun a c => 10 * a + digitVal c) 0

/-- Decimal digits of a number (Python `str`), without leading zeros. -/
def natChars (n : Nat) : PStr :=
  if _h : n < 10 then [digitChar n]
  else natChars (n / 10) ++ [digitChar (n % 10)]
decreasing_by exact Nat.div_lt_self (by omega) (by omega)

/-- A canonical decimal numeral: non-empty, all digits, no leading zero. -/
def natCanon : PStr → Bool
  | [] => false
  | c :: rest => isDigitCh c && rest.all isDigitCh && (c != '0' || rest == ([] : PStr))

/-- Parse the ID column. -/
def parseId (s : PStr) : Option TokId :=
  if natCanon s then some (.word (digitsVal s))
  else
    match splitSep '-' s with
    | [a, b] =>
      if natCanon a && natCanon b then some (.mwt (digitsVal a) (digitsVal b))
      else none
    | _ =>
      match splitSep '.' s with
      | [a, b] =>
        if natCanon a && natCanon b then some (.emptyTok (digitsVal a) (digitsVal b))
        else none
      | _ => none

/-- Serialize a token identifier. -/
def idChars : TokId → PStr
  | .word n => natChars n
  | .mwt a b => natChars a ++ '-' :: natChars b
  | .emptyTok a b => natChars a ++ '.' :: natChars b

/-- `_` decodes to the empty value (§3: empty string means "unspecified"). -/
def usDecode (s : PStr) : PStr := if s == ps ("_") then [] else s

/-- The empty value serializes as `_`. -/
def usEncode (s : PStr) : PStr := if s == ([] : PStr) then ps ("_") else s

/-- Split at the first occurrence of `c`. -/
def splitFirstCh (c : Char) : PStr → Option (PStr × PStr)
  | [] => none
  | a :: rest =>
    if a = c then some ([], rest)
    else
      match splitFirstCh c rest with
      | some (x, y) => some (a :: x, y)
      | none => none

/-- Parse a `|`-joined `Name=Value` list (`_` for empty). -/
def parseAVList (s : PStr) : Option (List (PStr × PStr)) :=
  if s == ps ("_") then some []
  else optMapM (splitFirstCh '=') (splitSep '|' s)

def avChars (p : PStr × PStr) : PStr := p.1 ++ '=' :: p.2

def cmpCh (a b : Char) : Ordering :=
  if a < b then .lt else if b < a then .gt else .eq

/-- Code-point lexicographic comparison (the codec's "alphabetic" order). -/
def cmpCL : PStr → PStr → Ordering
  | [], [] => .eq
  | [], _ :: _ => .lt
  | _ :: _, [] => .gt
  | a :: as, b :: bs =>
    match cmpCh a b with
    | .eq => cmpCL as bs
    | o => o

def insertSorted {α : Type} (le : α → α → Bool) (x : α) : List α → List α
  | [] => [x]
  | y :: ys => if le x y then x :: y :: ys else y :: insertSorted le x ys

/-- Insertion sort (the codec's serialization order). -/
def isortBy {α : Type} (le : α → α → Bool) : List α → List α
  | [] => []
  | x :: xs => insertSorted le x (isortBy le xs)

def strictSortedBy {α : Type} (lt : α → α → Bool) : List α → Bool
  | [] => true
  | [_] => true
  | x :: y :: r => lt x y && strictSortedBy lt (y :: r)

def ltKeys (p q : PStr × PStr) : Bool := cmpCL p.1 q.1 == Ordering.lt
def leKeys (p q : PStr × PStr) : Bool := !(cmpCL p.1 q.1 == Ordering.gt)

/-- Serialize FEATS: attributes in alphabetic order, `_` when empty. -/
def writeFeats (l : List (PStr × PStr)) : PStr :=
  if l = [] then ps ("_") else joinS '|' ((isortBy leKeys l).map avChars)

/-- Serialize MISC: insertion order preserved, `_` when empty. -/
def writeMisc (l : List (PStr × PStr)) : PStr :=
  if l = [] then ps ("_") else joinS '|' (l.map avChars)

/-- Sort key of a token id inside DEPS: (major, minor). -/
def idKey : TokId → Nat × Nat
  | .word n => (n, 0)
  | .mwt a b => (a, b)
  | .emptyTok a b => (a, b)

def cmpNatPair (a b : Nat × Nat) : Ordering :=
  if a.1 < b.1 then .lt else if b.1 < a.1 then .gt
  else if a.2 < b.2 then .lt else if b.2 < a.2 then .gt else .eq

def cmpDep (p q : DepPair) : Ordering :=
  match cmpNatPair (idKey p.head) (idKey q.head) with
  | .eq => cmpCL p.rel q.rel
  | o => o

def ltDep (p q : DepPair) : Bool := cmpDep p q == Ordering.lt
def leDep (p q : DepPair) : Bool := !(cmpDep p q == Ordering.gt)

def parseDep (s : PStr) : Option DepPair :=
  match splitFirstCh ':' s with
  | some (h, r) => (parseId h).map (fun i => ⟨i, r⟩)
  | none => none

def parseDeps (s : PStr) : Option (List DepPair) :=
  if s == ps ("_") then some [] else optMapM parseDep (splitSep '|' s)

def depChars (p : DepPair) : PStr := idChars p.head ++ ':' :: p.rel

/-- Serialize DEPS: ascending by (head, relation), `_` when empty. -/
def writeDeps (l : List DepPair) : PStr :=
  if l = [] then ps ("_") else joinS '|' ((isortBy leDep l).map depChars)

def parseHead (s : PStr) : Option (Option Nat) :=
  if s == ps ("_") then some none
  else if natCanon s then some (some (digitsVal s)) else none

def writeHead : Option Nat → PStr
  | none => ps ("_")
  | some n => natChars n

/-- Parse one token line: exactly ten tab-separated fields. -/
def parseTok (line : PStr) : Option CTok :=
  match splitSep '\t' line with
  | [f1, f2, f3, f4, f5, f6, f7, f8, f9, f10] =>
    match parseId f1, parseAVList f6, parseHead f7, parseDeps f9, parseAVList f10 with
    | some tid, some feats, some head, some deps, some misc =>
      some ⟨tid, usDecode f2, usDecode f3, usDecode f4, usDecode f5, feats, head,
        usDecode f8, deps, misc⟩
    | _, _, _, _, _ => none
  | _ => none

/-- Serialize one token line. -/
def writeTok (t : CTok) : PStr :=
  joinS '\t' [idChars t.tid, usEncode t.form, usEncode t.lemma_, usEncode t.upos,
    usEncode t.xpos, writeFeats t.feats, writeHead t.head, usEncode t.deprel,
    writeDeps t.deps, writeMisc t.misc]

def isCommentLine (l : PStr) : Bool := chStarts (ps ("#")) l

/-- Word ordinals of a sentence's tokens. -/
def wordOrds (toks : List CTok) : List Nat :=
  toks.filterMap (fun t =>
    match t.tid with
    | .word n => some n
    | _ => none)

/-- Reader check: every word's HEAD refers to `0` or an existing ordinal. -/
def headsOk (toks : List CTok) : Bool :=
  toks.all (fun t =>
    match t.tid, t.head with
    | .word _, some h => h == 0 || (wordOrds toks).contains h
    | _, _ => true)

/-- Reader check: at most one word with HEAD `0` (two simultaneous roots
abort the load). -/
def rootsOk (toks : List CTok) : Bool :=
  (toks.filter (fun t =>
    match t.tid, t.head with
    | .word _, some 0 => true
    | _, _ => false)).length ≤ 1

/-- Parse one sentence block: leading `#` comment lines attach to the
sentence, the remaining lines must all be token lines. -/
def parseSent (chunk : List PStr) : Option CSent :=
  match optMapM parseTok (chunk.dropWhile isCommentLine) with
  | some toks =>
    if headsOk toks && rootsOk toks then
      some ⟨chunk.takeWhile isCommentLine, toks⟩
    else none
  | none => none

def writeSent (s : CSent) : List PStr := s.comments ++ s.toks.map writeTok

/-- Read a CoNLL-U document from text: split into lines (the text must end
with a newline), group into blank-line-terminated blocks, parse each. -/
def parseConllu (text : PStr) : Option CDoc :=
  let ls := splitSep '\n' text
  if ls.getLast? == some ([] : PStr) then
    let chunks := splitSep ([] : PStr) ls.dropLast
    if chunks.getLast? == some ([] : List PStr) then
      match optMapM (fun c => if c = ([] : List PStr) then none else parseSent c)
          chunks.dropLast with
      | some sents => some ⟨sents⟩
      | none => none
    else none
  else none

/-- Serialize a CoNLL-U document: each sentence's lines followed by one
blank line, every line terminated by a newline. -/
def writeConllu (d : CDoc) : PStr :=
  joinS '\n' (joinS ([] : PStr) ((d.sents.map writeSent) ++ [[]]) ++ [[]])

/-- A valid token line: ten tab-separated fields, parseable ID/FEATS/HEAD/
DEPS/MISC with canonical numerals, non-empty plain fields, FEATS already in
alphabetic order and DEPS already sorted — the "no lossy constructs"
conditions of the round-trip property. -/
def validTokLine (l : PStr) : Bool :=
  match splitSep '\t' l with
  | [f1, f2, f3, f4, f5, f6, f7, f8, f9, f10] =>
    (parseId f1).isSome &&
    f2 != ([] : PStr) && f3 != ([] : PStr) && f4 != ([] : PStr) &&
    f5 != ([] : PStr) && f8 != ([] : PStr) &&
    (match parseAVList f6 with
     | some l6 => strictSortedBy ltKeys l6
     | none => false) &&
    (parseHead f7).isSome &&
    (match parseDeps f9 with
     | some l9 => strictSortedBy ltDep l9
     | none => false) &&
    (parseAVList f10).isSome
  | _ => false

/-- A valid sentence block: non-empty, comments first, all remaining lines
valid token lines, and the sentence-level reader checks pass. -/
def validChunk (chunk : List PStr) : Bool :=
  chunk != ([] : List PStr) &&
  (chunk.dropWhile isCommentLine).all validTokLine &&
  (match optMapM parseTok (chunk.dropWhile isCommentLine) with
   | some toks => headsOk toks && rootsOk toks
   | none => false)

/-- A syntactically valid CoNLL-U text with no lossy constructs. -/
def validConllu (text : PStr) : Bool :=
  (splitSep '\n' text).getLast? == some ([] : PStr) &&
  ((splitSep ([] : PStr) (splitSep '\n' text).dropLast).getLast? ==
    some ([] : List PStr)) &&
  (splitSep ([] : PStr) (splitSep '\n' text).dropLast).dropLast.all validChunk

end Conllu

namespace Document

/-- Modelled from the spec: the error taxonomy relevant to document
loading (§6, §7) — `MalformedLineError` from the reader, and the
unsupported-extension failure of `Document.__init__`
(document.py line 34, a `ValueError` in the source). -/
inductive LoadError
  | malformedInput
  | unsupportedFormat
deriving DecidableEq

/-- A Document: its bundles, one tree per bundle. -/
structure UDoc where
  bundles : List Conllu.CSent
deriving DecidableEq

/-- `Document.from_conllu_string` (document.py lines 57-60): load from a
CoNLL-U string via the reader. -/
def from_conllu_string (text : PStr) : Except LoadError UDoc :=
  match Conllu.parseConllu text with
  | some d => .ok ⟨d.sents⟩
  | none => .error .malformedInput

/-- `Document.to_conllu_string` (document.py lines 62-67): serialize via
the writer. -/
def to_conllu_string (d : UDoc) : PStr := Conllu.writeConllu ⟨d.bundles⟩

/-- Modelled from the spec: the plain-sentence reader
(udapi.block.read.sentences, not under src/) — one raw sentence per
physical line, no tokenization; each line becomes a tree with no nodes
whose stored text is the line. -/
def sentencesRead (content : PStr) : UDoc :=
  ⟨((splitSep '\n' content).filter (fun l => l != ([] : PStr))).map
    (fun l => ⟨[ps ("# text = ") ++ l], []⟩)⟩

/-- `Document.__init__` (document.py lines 13-34): dispatch on the filename
extension — `.conllu` loads with the CoNLL-U reader, `.txt` with the
plain-sentence reader, anything else fails (raising before any bundle is
created). -/
def document_init (filename : Option PStr) (content : PStr) : Except LoadError UDoc :=
  match filename with
  | none => .ok ⟨[]⟩
  | some f =>
    if chEnds (ps (".conllu")) f then from_conllu_string content
    else if chEnds (ps (".txt")) f then .ok (sentencesRead content)
    else .error .unsupportedFormat

end Document

-- ===== THEOREMS =====

namespace FixEdeprels

/-- **C1, counterexample.**  The claim asserts that after
`set_basic_and_enhanced(node, p, br, er)` the list `node.deps` contains no
entry whose parent is the previous basic parent `q`.  Taking `p = q = 1`
(re-attaching a node to its current parent with a new relation), the freshly
appended entry `{p, er}` itself has parent `q`, so the claim fails. -/
theorem c1_counterexample :
    ¬ (∀ e ∈ (set_basic_and_enhanced ⟨1, ps ("dep"), []⟩ 1 (ps ("nsubj"))
        (ps ("nsubj:x"))).deps, e.parent ≠ 1) := by
  decide

/-- **C1, amended.**  For every node with basic parent `q` and every new
parent `p` with `p ≠ q` such that `node.deps` holds no entry equal to
`{p, er}`: after `set_basic_and_enhanced(node, p, br, er)` the node's parent
is `p`, its deprel is `br`, `node.deps` contains no entry whose parent is
`q`, and contains exactly one entry `{p, er}`. -/
theorem c1_set_basic_and_enhanced_amended (node : NodeCore) (p : Nat) (br er : PStr)
    (hp : p ≠ node.parent)
    (hmem : ({ parent := p, deprel := er } : Edep) ∉ node.deps) :
    (set_basic_and_enhanced node p br er).parent = p ∧
    (set_basic_and_enhanced node p br er).deprel = br ∧
    (∀ e ∈ (set_basic_and_enhanced node p br er).deps, e.parent ≠ node.parent) ∧
    (set_basic_and_enhanced node p br er).deps.count
      ({ parent := p, deprel := er } : Edep) = 1 := by
  refine ⟨rfl, rfl, ?_, ?_⟩
  · intro e he
    simp only [set_basic_and_enhanced, List.mem_append, List.mem_filter,
      List.mem_singleton] at he
    rcases he with ⟨_, hne⟩ | rfl
    · simpa using hne
    · simpa using hp
  · have hcount0 :
        (node.deps.filter (fun x => x.parent != node.parent)).count
          ({ parent := p, deprel := er } : Edep) = 0 := by
      refine List.count_eq_zero.mpr (fun hc => ?_)
      exact hmem (List.mem_of_mem_filter hc)
    simp only [set_basic_and_enhanced, List.count_append, hcount0]
    simp

/-- **C1, witness** for the amended theorem: a node with basic parent 2 and
one enhanced edge to 2 is reattached to parent 1; afterwards no enhanced
edge points to 2 and exactly one entry `{1, er}` remains. -/
theorem c1_set_basic_and_enhanced_witness :
    (1 ≠ (⟨2, ps ("dep"), [⟨2, ps ("amod")⟩]⟩ : NodeCore).parent) ∧
    (({ parent := 1, deprel := ps ("nsubj:a") } : Edep) ∉
      (⟨2, ps ("dep"), [⟨2, ps ("amod")⟩]⟩ : NodeCore).deps) ∧
    ((set_basic_and_enhanced ⟨2, ps ("dep"), [⟨2, ps ("amod")⟩]⟩ 1 (ps ("nsubj"))
        (ps ("nsubj:a"))).parent = 1 ∧
      (set_basic_and_enhanced ⟨2, ps ("dep"), [⟨2, ps ("amod")⟩]⟩ 1 (ps ("nsubj"))
        (ps ("nsubj:a"))).deprel = ps ("nsubj") ∧
      (∀ e ∈ (set_basic_and_enhanced ⟨2, ps ("dep"), [⟨2, ps ("amod")⟩]⟩ 1
          (ps ("nsubj")) (ps ("nsubj:a"))).deps,
        e.parent ≠ (⟨2, ps ("dep"), [⟨2, ps ("amod")⟩]⟩ : NodeCore).parent) ∧
      (set_basic_and_enhanced ⟨2, ps ("dep"), [⟨2, ps ("amod")⟩]⟩ 1 (ps ("nsubj"))
        (ps ("nsubj:a"))).deps.count
        ({ parent := 1, deprel := ps ("nsubj:a") } : Edep) = 1) :=
  ⟨by decide, by decide,
    c1_set_basic_and_enhanced_amended ⟨2, ps ("dep"), [⟨2, ps ("amod")⟩]⟩ 1
      (ps ("nsubj")) (ps ("nsubj:a")) (by decide) (by decide)⟩

end FixEdeprels

namespace TreeModel

theorem pclimb_zero_base (t : Parents) : ∀ k, pclimb t k 0 = 0 := by
  intro k
  induction k with
  | zero => rfl
  | succ k ih =>
    show pclimb t k (parentOf t 0) = 0
    simpa [parentOf] using ih

theorem pclimb_add (t : Parents) (i j a : Nat) :
    pclimb t (i + j) a = pclimb t j (pclimb t i a) := by
  induction i generalizing a with
  | zero => simp [pclimb]
  | succ i ih =>
    have h1 : i + 1 + j = (i + j) + 1 := by omega
    rw [h1]
    show pclimb t (i + j) (parentOf t a) = pclimb t j (pclimb t i (parentOf t a))
    exact ih (parentOf t a)

theorem pclimb_succ_right (t : Parents) (m a : Nat) :
    pclimb t (m + 1) a = parentOf t (pclimb t m a) := by
  induction m generalizing a with
  | zero => rfl
  | succ m ih =>
    show pclimb t (m + 1) (parentOf t a) = parentOf t (pclimb t (m + 1) a)
    rw [ih (parentOf t a)]
    rfl

theorem parentOf_le (t : Parents) (hv : ValidParents t) (n : Nat) :
    parentOf t n ≤ t.length := by
  unfold parentOf
  split
  · omega
  · cases hget : t[n - 1]? with
    | none => simp
    | some v =>
      have hmem : v ∈ t := List.getElem?_mem hget
      simpa using hv v hmem

theorem parentOf_of_gt (t : Parents) (n : Nat) (h : t.length < n) :
    parentOf t n = 0 := by
  unfold parentOf
  rw [if_neg (by omega)]
  rw [List.getElem?_eq_none (by omega)]
  rfl

/-- Either `b` is reached from `a` within `t.length + 1` steps, or the tree
contains a short basic-parent cycle. -/
theorem reach_or_cycle (t : Parents) (hv : ValidParents t) (a b j : Nat)
    (hj : 1 ≤ j) (hreach : pclimb t j a = b) (hb : b ≠ 0) :
    (∃ i, 1 ≤ i ∧ i < t.length + 1 ∧ pclimb t i a = b) ∨
    (∃ c d, 1 ≤ c ∧ c ≤ t.length ∧ 1 ≤ d ∧ d ≤ t.length ∧ pclimb t d c = c) := by
  by_cases hle : j ≤ t.length
  · exact Or.inl ⟨j, hj, by omega, hreach⟩
  · right
    have hjge : t.length + 1 ≤ j := by omega
    have hnz : ∀ i, i ≤ j → pclimb t i a ≠ 0 := by
      intro i hi h0
      have hsplit : pclimb t j a = pclimb t (j - i) (pclimb t i a) := by
        rw [← pclimb_add]
        congr 1
        omega
      rw [hreach, h0, pclimb_zero_base] at hsplit
      exact hb hsplit
    have hub : ∀ i, 1 ≤ i → pclimb t i a ≤ t.length := by
      intro i hi
      have hsucc : pclimb t i a = parentOf t (pclimb t (i - 1) a) := by
        rw [← pclimb_succ_right]
        congr 1
        omega
      rw [hsucc]
      exact parentOf_le t hv _
    have hmaps : ∀ i ∈ Finset.Icc 1 (t.length + 1),
        pclimb t i a ∈ Finset.Icc 1 t.length := by
      intro i hi
      rw [Finset.mem_Icc] at hi ⊢
      constructor
      · have := hnz i (by omega)
        omega
      · exact hub i hi.1
    have hcard : (Finset.Icc 1 t.length).card < (Finset.Icc 1 (t.length + 1)).card := by
      rw [Nat.card_Icc, Nat.card_Icc]
      omega
    obtain ⟨x, hx, y, hy, hxy, hfeq⟩ :=
      Finset.exists_ne_map_eq_of_card_lt_of_maps_to hcard hmaps
    rw [Finset.mem_Icc] at hx hy
    have key : ∀ u v : Nat, 1 ≤ u → v ≤ t.length + 1 → u < v →
        pclimb t u a = pclimb t v a →
        ∃ c d, 1 ≤ c ∧ c ≤ t.length ∧ 1 ≤ d ∧ d ≤ t.length ∧ pclimb t d c = c := by
      intro u v hu hv2 huv heq
      refine ⟨pclimb t u a, v - u, ?_, hub u hu, by omega, by omega, ?_⟩
      · have := hnz u (by omega)
        omega
      · have hshift : pclimb t v a = pclimb t (v - u) (pclimb t u a) := by
          rw [← pclimb_add]
          congr 1
          omega
        rw [← heq] at hshift
        exact hshift.symm
    rcases Nat.lt_or_ge x y with hlt | hge
    · exact key x y hx.1 hy.2 hlt hfeq
    · have hlt : y < x := by omega
      exact key y x hy.1 hx.2 hlt hfeq.symm

/-- On a valid acyclic tree, any ancestor relation is detected by the bounded
`is_descendant_of` walk. -/
theorem desc_of_reach (t : Parents) (hv : ValidParents t) (ha : Acyclic t)
    (a b j : Nat) (hj : 1 ≤ j) (hr : pclimb t j a = b) (hb : b ≠ 0) :
    is_descendant_of t a b = true := by
  rcases reach_or_cycle t hv a b j hj hr hb with ⟨i, hi1, hi2, hi3⟩ |
    ⟨c, d, hc1, _, hd1, _, hcyc⟩
  · unfold is_descendant_of
    rw [List.any_eq_true]
    refine ⟨i - 1, List.mem_range.mpr (by omega), ?_⟩
    have : i - 1 + 1 = i := by omega
    rw [this, hi3]
    exact beq_self_eq_true b
  · exfalso
    have := ha c (by omega) (d - 1)
    rw [show d - 1 + 1 = d by omega] at this
    exact this hcyc

/-- Acyclicity follows from its bounded (decidable) form on a valid tree. -/
theorem acyclic_of_bounded (t : Parents) (hv : ValidParents t)
    (hb : ∀ n, n < t.length + 1 → 1 ≤ n → ∀ k, k < t.length + 1 →
      pclimb t (k + 1) n ≠ n) : Acyclic t := by
  intro n hn k hcyc
  by_cases hlen : n ≤ t.length
  · rcases reach_or_cycle t hv n n (k + 1) (by omega) hcyc hn with
      ⟨i, hi1, hi2, hi3⟩ | ⟨c, d, hc1, hc2, hd1, hd2, hcyc2⟩
    · refine hb n (by omega) (by omega) (i - 1) (by omega) ?_
      rw [show i - 1 + 1 = i by omega]
      exact hi3
    · refine hb c (by omega) (by omega) (d - 1) (by omega) ?_
      rw [show d - 1 + 1 = d by omega]
      exact hcyc2
  · have h0 : parentOf t n = 0 := parentOf_of_gt t n (by omega)
    have : pclimb t (k + 1) n = 0 := by
      show pclimb t k (parentOf t n) = 0
      rw [h0, pclimb_zero_base]
    rw [this] at hcyc
    exact hn hcyc.symm

theorem parentOf_set_self (t : Parents) (node newp : Nat) (h1 : 1 ≤ node)
    (h2 : node ≤ t.length) :
    parentOf (t.set (node - 1) newp) node = newp := by
  unfold parentOf
  rw [if_neg (by omega)]
  rw [List.getElem?_set_self' ]
  rw [List.getElem?_eq_getElem (by simpa using by omega : node - 1 < t.length)]
  rfl

theorem parentOf_set_other (t : Parents) (node newp m : Nat) (h1 : 1 ≤ node)
    (hm : m ≠ node) :
    parentOf (t.set (node - 1) newp) m = parentOf t m := by
  unfold parentOf
  by_cases hm0 : m = 0
  · simp [hm0]
  · rw [if_neg hm0, if_neg hm0]
    rw [List.getElem?_set_ne (by omega)]

/-- Climbs agree between two trees whose parent maps differ only at `node`,
along any path that avoids `node`. -/
theorem pclimb_congr (t t2 : Parents) (node : Nat)
    (hpar : ∀ m, m ≠ node → parentOf t2 m = parentOf t m) :
    ∀ j m, (∀ i, i < j → pclimb t2 i m ≠ node) → pclimb t2 j m = pclimb t j m := by
  intro j
  induction j with
  | zero => intro m _; rfl
  | succ j ih =>
    intro m hav
    have h0 : m ≠ node := by
      have := hav 0 (by omega)
      simpa [pclimb] using this
    show pclimb t2 j (parentOf t2 m) = pclimb t j (parentOf t m)
    rw [hpar m h0]
    refine ih (parentOf t m) ?_
    intro i hi
    have : pclimb t2 i (parentOf t2 m) = pclimb t2 (i + 1) m := by
      rw [show i + 1 = 1 + i by omega, pclimb_add]
      rfl
    rw [← hpar m h0, this]
    exact hav (i + 1) (by omega)

/-- Acyclicity is preserved by changing the single parent edge of `node` to a
`newp` that is neither `node` nor detected as its descendant. -/
theorem acyclic_of_redirect (t t2 : Parents) (node newp : Nat)
    (hv : ValidParents t) (ha : Acyclic t)
    (hnode0 : node ≠ 0) (hne : newp ≠ node)
    (hdesc : is_descendant_of t newp node = false)
    (hpar : ∀ m, m ≠ node → parentOf t2 m = parentOf t m)
    (hparself : parentOf t2 node = newp) : Acyclic t2 := by
  intro m hm k hcyc
  by_cases hhit : ∃ i, i ≤ k ∧ pclimb t2 i m = node
  · obtain ⟨i, hik, hieq⟩ := hhit
    have hrot : pclimb t2 (k + 1) node = node := by
      have e1 : pclimb t2 (k + 1) (pclimb t2 i m) = pclimb t2 (i + (k + 1)) m :=
        (pclimb_add t2 i (k + 1) m).symm
      have e2 : pclimb t2 (i + (k + 1)) m =
          pclimb t2 i (pclimb t2 (k + 1) m) := by
        rw [show i + (k + 1) = (k + 1) + i by omega]
        exact pclimb_add t2 (k + 1) i m
      rw [hieq] at e1
      rw [e1, e2, hcyc, hieq]
    have hstep : pclimb t2 k newp = node := by
      have hunf : pclimb t2 (k + 1) node = pclimb t2 k (parentOf t2 node) := rfl
      rw [hunf, hparself] at hrot
      exact hrot
    have hex : ∃ j, pclimb t2 j newp = node := ⟨k, hstep⟩
    have hj0 : pclimb t2 (Nat.find hex) newp = node := Nat.find_spec hex
    have hmin : ∀ i, i < Nat.find hex → pclimb t2 i newp ≠ node := by
      intro i hi
      exact Nat.find_min hex hi
    have hj0pos : 1 ≤ Nat.find hex := by
      rcases Nat.eq_zero_or_pos (Nat.find hex) with h0 | hpos
      · rw [h0] at hj0
        exact absurd hj0 hne
      · exact hpos
    have hclean : pclimb t (Nat.find hex) newp = node := by
      rw [← pclimb_congr t t2 node hpar (Nat.find hex) newp hmin]
      exact hj0
    have hd := desc_of_reach t hv ha newp node (Nat.find hex) hj0pos hclean hnode0
    rw [hd] at hdesc
    exact absurd hdesc (by simp)
  · push_neg at hhit
    have hav : ∀ i, i < k + 1 → pclimb t2 i m ≠ node := by
      intro i hi
      exact hhit i (by omega)
    rw [pclimb_congr t t2 node hpar (k + 1) m hav] at hcyc
    exact ha m hm k hcyc

/-- A successful `set_parent` updates exactly one ownership edge and keeps
the tree valid and acyclic. -/
theorem set_parent_ok_sound (t : Parents) (node newp : Nat) (t2 : Parents)
    (hv : ValidParents t) (ha : Acyclic t)
    (h : set_parent t node newp = .ok t2) :
    t2 = t.set (node - 1) newp ∧ ValidParents t2 ∧ Acyclic t2 := by
  unfold set_parent at h
  by_cases hg1 : node = 0 ∨ t.length < node ∨ t.length < newp
  · rw [if_pos hg1] at h
    exact absurd h (by simp)
  · rw [if_neg hg1] at h
    by_cases hg2 : newp = node ∨ is_descendant_of t newp node = true
    · rw [if_pos hg2] at h
      exact absurd h (by simp)
    · rw [if_neg hg2] at h
      have ht2 : t2 = t.set (node - 1) newp := by
        cases h
        rfl
      push_neg at hg1 hg2
      obtain ⟨hnode0, hnlen, hplen⟩ := hg1
      obtain ⟨hne, hdesc⟩ := hg2
      have h1 : 1 ≤ node := by omega
      refine ⟨ht2, ?_, ?_⟩
      · intro v hvm
        rw [ht2] at hvm
        rw [ht2, List.length_set]
        rcases List.mem_or_eq_of_mem_set hvm with hin | rfl
        · exact hv v hin
        · exact hplen
      · refine acyclic_of_redirect t t2 node newp hv ha (by omega) hne
          (by simpa using hdesc) ?_ ?_
        · intro m hm
          rw [ht2]
          exact parentOf_set_other t node newp m h1 hm
        · rw [ht2]
          exact parentOf_set_self t node newp h1 hnlen

/-- **C3.**  On a valid acyclic tree: (a) for every node and every candidate
new parent that is the node itself or a descendant of the node (i.e. the
node is reachable by climbing basic parents from the candidate), setting the
node's basic parent fails with `CycleError` — the functional model returns
the error and no updated tree, so the tree is unchanged; (b) after any
sequence of reparent/reattach operations (failed ones skipped), no node of
the tree is its own ancestor. -/
theorem c3_reparent_acyclic (t : Parents) (hv : ValidParents t) (ha : Acyclic t) :
    (∀ node newp, 1 ≤ node → node ≤ t.length → newp ≤ t.length →
        (newp = node ∨ ∃ k, pclimb t (k + 1) newp = node) →
        set_parent t node newp = .error .cycleError) ∧
    ∀ ops, Acyclic (reparentOps t ops) := by
  constructor
  · intro node newp h1 h2 h3 hcand
    unfold set_parent
    rw [if_neg (by omega)]
    rw [if_pos ?_]
    rcases hcand with rfl | ⟨k, hk⟩
    · exact Or.inl rfl
    · exact Or.inr (desc_of_reach t hv ha newp node (k + 1) (by omega) hk (by omega))
  · have haux : ∀ ops t0, ValidParents t0 → Acyclic t0 →
        ValidParents (reparentOps t0 ops) ∧ Acyclic (reparentOps t0 ops) := by
      intro ops
      induction ops with
      | nil => intro t0 hv0 ha0; exact ⟨hv0, ha0⟩
      | cons op rest ih =>
        intro t0 hv0 ha0
        unfold reparentOps
        cases hsp : set_parent t0 op.1 op.2 with
        | error e => exact ih t0 hv0 ha0
        | ok t2 =>
          obtain ⟨_, hv2, ha2⟩ := set_parent_ok_sound t0 op.1 op.2 t2 hv0 ha0 hsp
          exact ih t2 hv2 ha2
    intro ops
    exact (haux ops t hv ha).2

/-- **C3, witness**: the chain 1 ← 2 ← 3 (parents `[0, 1, 2]`) is valid and
acyclic; the theorem applies to it. -/
theorem c3_reparent_acyclic_witness :
    (∀ node newp, 1 ≤ node → node ≤ ([0, 1, 2] : Parents).length →
        newp ≤ ([0, 1, 2] : Parents).length →
        (newp = node ∨ ∃ k, pclimb [0, 1, 2] (k + 1) newp = node) →
        set_parent [0, 1, 2] node newp = .error .cycleError) ∧
    ∀ ops, Acyclic (reparentOps [0, 1, 2] ops) :=
  c3_reparent_acyclic [0, 1, 2] (by unfold ValidParents; decide)
    (acyclic_of_bounded [0, 1, 2] (by unfold ValidParents; decide) (by decide))

end TreeModel

namespace FixGSD

theorem mReparent_ord (nd first hyph c : GNode) :
    (mReparent nd first hyph c).ord = c.ord := by
  unfold mReparent
  split <;> rfl

theorem mReparent_form (nd first hyph c : GNode) :
    (mReparent nd first hyph c).form = c.form := by
  unfold mReparent
  split <;> rfl

theorem mReparent_feats (nd first hyph c : GNode) :
    (mReparent nd first hyph c).feats = c.feats := by
  unfold mReparent
  split <;> rfl

theorem mUpdate_ord (nd first c : GNode) : (mUpdate nd first c).ord = c.ord := by
  unfold mUpdate
  split <;> rfl

theorem mUpdate_parent (nd first c : GNode) :
    (mUpdate nd first c).parent = c.parent := by
  unfold mUpdate
  split <;> rfl

theorem mUpdate_of_ne (nd first c : GNode) (h : c.ord ≠ first.ord) :
    mUpdate nd first c = c := by
  simp [mUpdate, h]

theorem lookup_setPair_self (k v : PStr) (l : List (PStr × PStr)) (hv : v ≠ []) :
    lookupPair k (setPair k v l) = v := by
  induction l with
  | nil => simp [setPair, hv, lookupPair]
  | cons p rest ih =>
    by_cases hp : p.1 = k
    · simp [setPair, hp, hv, lookupPair]
    · simp [setPair, hp, lookupPair, ih]

theorem find?_append_none {p : GNode → Bool} (A rest : List GNode)
    (h : ∀ c ∈ A, p c = false) : (A ++ rest).find? p = rest.find? p := by
  induction A with
  | nil => rfl
  | cons a A ih =>
    rw [List.cons_append, List.find?_cons_of_neg]
    · exact ih (fun c hc => h c (List.mem_cons_of_mem a hc))
    · simp [h a (List.mem_cons_self a A)]

theorem concatForms_cons (c : GNode) (l : List GNode) :
    concatForms (c :: l) = c.form ++ concatForms l := by
  simp [concatForms]

theorem concatForms_append (a b : List GNode) :
    concatForms (a ++ b) = concatForms a ++ concatForms b := by
  simp [concatForms]

/-- Nodes whose ordinal is none of the three merge participants survive the
merge pipeline with their form intact. -/
theorem pipeline_forms (nd first hyph : GNode) (l : List GNode)
    (h : ∀ c ∈ l, c.ord ≠ first.ord ∧ c.ord ≠ hyph.ord ∧ c.ord ≠ nd.ord) :
    concatForms (((l.map (mReparent nd first hyph)).map (mUpdate nd first)).filter
      (mKeep nd hyph)) = concatForms l := by
  induction l with
  | nil => rfl
  | cons c l ih =>
    obtain ⟨h1, h2, h3⟩ := h c (List.mem_cons_self c l)
    have hrest : ∀ c2 ∈ l, c2.ord ≠ first.ord ∧ c2.ord ≠ hyph.ord ∧ c2.ord ≠ nd.ord :=
      fun c2 hc => h c2 (List.mem_cons_of_mem _ hc)
    have hmu : mUpdate nd first (mReparent nd first hyph c) = mReparent nd first hyph c :=
      mUpdate_of_ne nd first _ (by rw [mReparent_ord]; exact h1)
    have hkeep : mKeep nd hyph (mReparent nd first hyph c) = true := by
      simp [mKeep, mReparent_ord, h2, h3]
    simp only [List.map_cons, hmu, List.filter_cons, hkeep, if_true]
    rw [concatForms_cons, concatForms_cons, mReparent_form, ih hrest]

/-- When the merge fires, it reduces to `mergeAct` on the three looked-up
participants, and every precondition of fixgsd.py lines 88-94 holds. -/
theorem mergeFires_elim (t : GTree) (o : Nat) (nd first hyph : GNode)
    (hnd : findNode t.nodes o = some nd)
    (hfirst : findNode t.nodes nd.parent = some first)
    (hhyph : findNode t.nodes (nd.ord - 1) = some hyph)
    (hfire : mergeFires t o = true) :
    merge_reduplicated_plural t o = mergeAct t nd first hyph ∧
    nd.deprel = ps ("compound:plur") ∧
    first.ord = nd.ord - 2 ∧
    lowerP first.form = lowerP nd.form ∧
    gIsDescendantOf t.nodes hyph.ord first.ord = true ∧
    isHyphenForm hyph.form = true ∧
    nd.ord = o ∧ first.ord = nd.parent ∧ hyph.ord = nd.ord - 1 := by
  have hordnd : nd.ord = o := by
    have := List.find?_some (by simpa [findNode] using hnd)
    simpa using this
  have hordfirst : first.ord = nd.parent := by
    have := List.find?_some (by simpa [findNode] using hfirst)
    simpa using this
  have hordhyph : hyph.ord = nd.ord - 1 := by
    have := List.find?_some (by simpa [findNode] using hhyph)
    simpa using this
  simp only [mergeFires, hnd, hfirst, hhyph, Bool.and_eq_true, beq_iff_eq] at hfire
  obtain ⟨hdep, ⟨hford, hlow⟩, hdesc, hhyphf⟩ := hfire
  refine ⟨?_, hdep, hford, hlow, hdesc, hhyphf, hordnd, hordfirst, hordhyph⟩
  simp only [merge_reduplicated_plural, hnd, hfirst, hhyph]
  rw [if_pos (by simp [hdep]), if_pos (by simp [hford, hlow]),
    if_pos (by simp [hdesc, hhyphf])]

/-- **C7, amended.**  When any precondition of the merge is unmet, the call
returns with the node graph entirely unchanged (no error is raised — the
Python method silently falls through). -/
theorem c7_merge_skip_amended (t : GTree) (o : Nat)
    (hfire : mergeFires t o = false) :
    merge_reduplicated_plural t o = t := by
  simp only [mergeFires] at hfire
  simp only [merge_reduplicated_plural]
  cases hnd : findNode t.nodes o with
  | none => rfl
  | some nd =>
    simp only [hnd] at hfire ⊢
    by_cases hdep : (nd.deprel == ps ("compound:plur")) = true
    · rw [if_pos hdep]
      simp only [hdep, Bool.true_and] at hfire
      cases hf1 : findNode t.nodes nd.parent with
      | none => rfl
      | some first =>
        simp only [hf1] at hfire ⊢
        by_cases hc2 : (first.ord == nd.ord - 2 && lowerP first.form == lowerP nd.form) = true
        · rw [if_pos (by simpa [Bool.and_eq_true] using hc2)]
          simp only [hc2, Bool.true_and] at hfire
          cases hf2 : findNode t.nodes (nd.ord - 1) with
          | none => rfl
          | some hyph =>
            simp only [hf2] at hfire ⊢
            by_cases hc3 : (gIsDescendantOf t.nodes hyph.ord first.ord &&
                isHyphenForm hyph.form) = true
            · rw [hc3] at hfire
              exact absurd hfire (by simp)
            · rw [if_neg (by simpa [Bool.and_eq_true] using hc3)]
        · rw [if_neg (by simpa [Bool.and_eq_true] using hc2)]
    · rw [if_neg hdep]

/-- **C7, counterexample.**  On a tree whose intermediate token is `x`
rather than a hyphen, the preconditions are unmet and
`merge_reduplicated_plural` returns the unchanged tree normally: no
`StructuralPreconditionError` (or any other failure) occurs anywhere in
fixgsd.py lines 86-113 — the claim's asserted error does not exist. -/
theorem c7_counterexample :
    mergeFires exBad 3 = false ∧ merge_reduplicated_plural exBad 3 = exBad := by
  constructor
  · decide
  · decide

/-- **C7, witness** for the amended theorem, at the same concrete tree. -/
theorem c7_merge_skip_witness :
    mergeFires exBad 3 = false ∧ merge_reduplicated_plural exBad 3 = exBad :=
  ⟨by decide, c7_merge_skip_amended exBad 3 (by decide)⟩

end FixGSD

namespace FixGSD

/-- **C4, counterexample.**  On a tree whose linking token is an en-dash
`–` (accepted by the merge pattern), the merge joins the two conjunct forms
with a plain ASCII hyphen, so the concatenation of the surviving forms in
`ord` order differs from the original concatenation: the merged form is NOT
joined with the original separating text. -/
theorem c4_counterexample :
    mergeFires exDash 3 = true ∧
    concatForms (merge_reduplicated_plural exDash 3).nodes ≠
      concatForms exDash.nodes := by
  constructor
  · decide
  · decide

/-- **C4, amended.**  For every tree on which the merge fires, written as
`A ++ [first, hyph, nd] ++ B` with all other ordinals distinct from the
three participants: the concatenation of the surviving forms in `ord` order
equals the original concatenation with the linking token's form replaced by
a plain `"-"` (the merged first form is `first.form ++ "-" ++ nd.form`);
in particular it equals the original concatenation exactly when the linking
token's form was `"-"`. -/
theorem c4_merge_span_amended (t : GTree) (nd first hyph : GNode) (A B : List GNode)
    (hdecomp : t.nodes = A ++ first :: hyph :: nd :: B)
    (hAB : ∀ c ∈ A ++ B, c.ord ≠ first.ord ∧ c.ord ≠ hyph.ord ∧ c.ord ≠ nd.ord)
    (hford : first.ord = nd.ord - 2)
    (hhord : hyph.ord = nd.ord - 1)
    (hnord : 3 ≤ nd.ord)
    (hpar : nd.parent = first.ord)
    (hdeprel : nd.deprel = ps ("compound:plur"))
    (hlower : lowerP first.form = lowerP nd.form)
    (hdesc : gIsDescendantOf t.nodes hyph.ord first.ord = true)
    (hhyphf : isHyphenForm hyph.form = true) :
    concatForms (merge_reduplicated_plural t nd.ord).nodes =
      concatForms A ++ first.form ++ ps ("-") ++ nd.form ++ concatForms B ∧
    (hyph.form = ps ("-") →
      concatForms (merge_reduplicated_plural t nd.ord).nodes =
        concatForms t.nodes) := by
  have hd1 : first.ord ≠ hyph.ord := by omega
  have hd2 : first.ord ≠ nd.ord := by omega
  have hd3 : hyph.ord ≠ nd.ord := by omega
  have hABfalse : ∀ o2 : Nat, (o2 = first.ord ∨ o2 = hyph.ord ∨ o2 = nd.ord) →
      ∀ c ∈ A, (c.ord == o2) = false := by
    intro o2 ho2 c hc
    obtain ⟨x1, x2, x3⟩ := hAB c (List.mem_append_left B hc)
    rcases ho2 with rfl | rfl | rfl <;> simp [x1, x2, x3]
  have hfn1 : findNode t.nodes nd.ord = some nd := by
    unfold findNode
    rw [hdecomp, find?_append_none _ _ (hABfalse nd.ord (Or.inr (Or.inr rfl)))]
    rw [List.find?_cons_of_neg _ (by simp [hd2]),
      List.find?_cons_of_neg _ (by simp [hd3]),
      List.find?_cons_of_pos _ (by simp)]
  have hfn2 : findNode t.nodes nd.parent = some first := by
    unfold findNode
    rw [hpar, hdecomp, find?_append_none _ _ (hABfalse first.ord (Or.inl rfl))]
    rw [List.find?_cons_of_pos _ (by simp)]
  have hfn3 : findNode t.nodes (nd.ord - 1) = some hyph := by
    unfold findNode
    rw [← hhord, hdecomp, find?_append_none _ _ (hABfalse hyph.ord (Or.inr (Or.inl rfl)))]
    rw [List.find?_cons_of_neg _ (by simp [hd1]),
      List.find?_cons_of_pos _ (by simp)]
  have hfire : mergeFires t nd.ord = true := by
    simp only [mergeFires, hfn1, hfn2, hfn3, Bool.and_eq_true, beq_iff_eq]
    exact ⟨hdeprel, ⟨hford, hlower⟩, hdesc, hhyphf⟩
  obtain ⟨hma, _⟩ := mergeFires_elim t nd.ord nd first hyph hfn1 hfn2 hfn3 hfire
  have hA : ∀ c ∈ A, c.ord ≠ first.ord ∧ c.ord ≠ hyph.ord ∧ c.ord ≠ nd.ord :=
    fun c hc => hAB c (List.mem_append_left B hc)
  have hB : ∀ c ∈ B, c.ord ≠ first.ord ∧ c.ord ≠ hyph.ord ∧ c.ord ≠ nd.ord :=
    fun c hc => hAB c (List.mem_append_right A hc)
  have e_hyph : mUpdate nd first (mReparent nd first hyph hyph) =
      mReparent nd first hyph hyph :=
    mUpdate_of_ne nd first _ (by rw [mReparent_ord]; exact fun h => hd1 h.symm)
  have e_nd : mUpdate nd first (mReparent nd first hyph nd) =
      mReparent nd first hyph nd :=
    mUpdate_of_ne nd first _ (by rw [mReparent_ord]; exact fun h => hd2 h.symm)
  have k_first : mKeep nd hyph (mUpdate nd first (mReparent nd first hyph first)) = true := by
    simp [mKeep, mUpdate_ord, mReparent_ord, hd1, hd2]
  have k_hyph : mKeep nd hyph (mReparent nd first hyph hyph) = false := by
    simp [mKeep, mReparent_ord]
  have k_nd : mKeep nd hyph (mReparent nd first hyph nd) = false := by
    simp [mKeep, mReparent_ord]
  have hupd : (mUpdate nd first (mReparent nd first hyph first)).form =
      first.form ++ ps ("-") ++ nd.form := by
    unfold mUpdate
    rw [if_pos (by simp [mReparent_ord])]
    show (mReparent nd first hyph first).form ++ ps ("-") ++ nd.form = _
    rw [mReparent_form]
  have hmain : concatForms (merge_reduplicated_plural t nd.ord).nodes =
      concatForms A ++ first.form ++ ps ("-") ++ nd.form ++ concatForms B := by
    rw [hma]
    simp only [mergeAct]
    rw [hdecomp]
    simp only [List.map_append, List.map_cons, List.filter_append, List.filter_cons,
      e_hyph, e_nd, k_first, k_hyph, k_nd]
    simp only [if_true, if_false, Bool.false_eq_true]
    rw [concatForms_append, pipeline_forms nd first hyph A hA]
    rw [concatForms_cons, hupd, pipeline_forms nd first hyph B hB]
    simp [List.append_assoc]
  refine ⟨hmain, fun hdash => ?_⟩
  rw [hmain, hdecomp, concatForms_append]
  simp [concatForms_cons, hdash, List.append_assoc]

/-- **C4, witness** for the amended theorem, at the concrete tree
`buku - buku` where the linking token is a plain hyphen. -/
theorem c4_merge_span_witness :
    concatForms (merge_reduplicated_plural exGood exNd.ord).nodes =
      concatForms [] ++ exFirst.form ++ ps ("-") ++ exNd.form ++ concatForms [] ∧
    (exHyph.form = ps ("-") →
      concatForms (merge_reduplicated_plural exGood exNd.ord).nodes =
        concatForms exGood.nodes) :=
  c4_merge_span_amended exGood exNd exFirst exHyph [] [] rfl (by simp)
    (by decide) (by decide) (by decide) (by decide) (by decide) (by decide)
    (by decide) (by decide)

end FixGSD

namespace FixGSD

/-- **C5.**  For every node on which the merge preconditions hold (the
merge fires: `compound:plur` deprel, `first.ord = nd.ord - 2`, matching
forms, and the linking token pattern — all encoded in `mergeFires`), the
merge reparents every surviving child of the linking token and of the
second node onto the first node, sets `Number=Plur` on the first node, and
removes both the linking token and the second node from the tree. -/
theorem c5_merge_effects (t : GTree) (o : Nat) (nd first hyph : GNode)
    (hnd : findNode t.nodes o = some nd)
    (hfirst : findNode t.nodes nd.parent = some first)
    (hhyph : findNode t.nodes (nd.ord - 1) = some hyph)
    (hords : ∀ c ∈ t.nodes, 1 ≤ c.ord)
    (hfire : mergeFires t o = true) :
    (∀ c ∈ t.nodes, (c.parent = hyph.ord ∨ c.parent = nd.ord) →
        c.ord ≠ hyph.ord → c.ord ≠ nd.ord →
        ∃ c2 ∈ (merge_reduplicated_plural t o).nodes,
          c2.ord = c.ord ∧ c2.parent = first.ord) ∧
    (∃ f2 ∈ (merge_reduplicated_plural t o).nodes,
        f2.ord = first.ord ∧ lookupPair (ps ("Number")) f2.feats = ps ("Plur")) ∧
    (∀ c2 ∈ (merge_reduplicated_plural t o).nodes,
        c2.ord ≠ hyph.ord ∧ c2.ord ≠ nd.ord) := by
  obtain ⟨hma, hdep, hford, hlow, hdesc, hhyphf, hordo, hordf, hordh⟩ :=
    mergeFires_elim t o nd first hyph hnd hfirst hhyph hfire
  have hfmem : first ∈ t.nodes :=
    List.mem_of_find?_eq_some (by simpa [findNode] using hfirst)
  have h1f : 1 ≤ first.ord := hords first hfmem
  have hd1 : first.ord ≠ hyph.ord := by omega
  have hd2 : first.ord ≠ nd.ord := by omega
  rw [hma]
  simp only [mergeAct]
  refine ⟨?_, ?_, ?_⟩
  · intro c hc hcp hch hcn
    refine ⟨mUpdate nd first (mReparent nd first hyph c), ?_, ?_, ?_⟩
    · apply List.mem_filter.mpr
      refine ⟨List.mem_map_of_mem _ (List.mem_map_of_mem _ hc), ?_⟩
      simp [mKeep, mUpdate_ord, mReparent_ord, hch, hcn]
    · rw [mUpdate_ord, mReparent_ord]
    · rw [mUpdate_parent]
      unfold mReparent
      rw [if_pos (by rcases hcp with h | h <;> simp [h])]
  · refine ⟨mUpdate nd first (mReparent nd first hyph first), ?_, ?_, ?_⟩
    · apply List.mem_filter.mpr
      refine ⟨List.mem_map_of_mem _ (List.mem_map_of_mem _ hfmem), ?_⟩
      simp [mKeep, mUpdate_ord, mReparent_ord, hd1, hd2]
    · rw [mUpdate_ord, mReparent_ord]
    · unfold mUpdate
      rw [if_pos (by simp [mReparent_ord])]
      show lookupPair (ps ("Number"))
        (setPair (ps ("Number")) (ps ("Plur")) (mReparent nd first hyph first).feats) =
        ps ("Plur")
      exact lookup_setPair_self _ _ _ (by decide)
  · intro c2 hc2
    have hkp := List.of_mem_filter hc2
    simp only [mKeep, Bool.and_eq_true, bne_iff_ne, ne_eq] at hkp
    exact ⟨hkp.1, hkp.2⟩

/-- **C5, witness**: the merge effects at the concrete tree `buku - buku`. -/
theorem c5_merge_effects_witness :
    (∀ c ∈ exGood.nodes, (c.parent = exHyph.ord ∨ c.parent = exNd.ord) →
        c.ord ≠ exHyph.ord → c.ord ≠ exNd.ord →
        ∃ c2 ∈ (merge_reduplicated_plural exGood 3).nodes,
          c2.ord = c.ord ∧ c2.parent = exFirst.ord) ∧
    (∃ f2 ∈ (merge_reduplicated_plural exGood 3).nodes,
        f2.ord = exFirst.ord ∧ lookupPair (ps ("Number")) f2.feats = ps ("Plur")) ∧
    (∀ c2 ∈ (merge_reduplicated_plural exGood 3).nodes,
        c2.ord ≠ exHyph.ord ∧ c2.ord ≠ exNd.ord) :=
  c5_merge_effects exGood 3 exNd exFirst exHyph (by decide) (by decide) (by decide)
    (by decide) (by decide)

/-- When the merge fires, all three participant lookups succeed. -/
theorem mergeFires_finds (t : GTree) (o : Nat) (hfire : mergeFires t o = true) :
    ∃ nd first hyph, findNode t.nodes o = some nd ∧
      findNode t.nodes nd.parent = some first ∧
      findNode t.nodes (nd.ord - 1) = some hyph := by
  unfold mergeFires at hfire
  cases hnd : findNode t.nodes o with
  | none => simp only [hnd] at hfire; exact absurd hfire (by simp)
  | some nd =>
    simp only [hnd] at hfire
    cases hf1 : findNode t.nodes nd.parent with
    | none =>
      simp only [hf1, Bool.and_false] at hfire
      exact absurd hfire (by simp)
    | some first =>
      simp only [hf1] at hfire
      cases hf2 : findNode t.nodes (nd.ord - 1) with
      | none =>
        simp only [hf2, Bool.and_false] at hfire
        exact absurd hfire (by simp)
      | some hyph => exact ⟨nd, first, hyph, rfl, hf1, hf2⟩

/-- **C8.**  Whenever the merge fires, the tree's stored sentence text is
recomputed from the post-merge state: afterwards `t.text` equals the text
derived from the surviving tokens in `ord` order with spacing governed by
their current no-space-after flags (fixgsd.py line 113). -/
theorem c8_text_recomputed (t : GTree) (o : Nat) (hfire : mergeFires t o = true) :
    (merge_reduplicated_plural t o).text =
      computeText (merge_reduplicated_plural t o).nodes := by
  obtain ⟨nd, first, hyph, hnd, hf1, hf2⟩ := mergeFires_finds t o hfire
  obtain ⟨hma, -⟩ := mergeFires_elim t o nd first hyph hnd hf1 hf2 hfire
  rw [hma]
  simp only [mergeAct]

/-- **C8, witness**: at the concrete tree `buku - buku`. -/
theorem c8_text_recomputed_witness :
    (merge_reduplicated_plural exGood 3).text =
      computeText (merge_reduplicated_plural exGood 3).nodes :=
  c8_text_recomputed exGood 3 (by decide)

end FixGSD

namespace FixEdeprels

theorem forall2_map_self {α : Type} (R : α → α → Prop) (f : α → α) (l : List α)
    (h : ∀ a ∈ l, R (f a) a) : List.Forall₂ R (l.map f) l := by
  induction l with
  | nil => exact List.Forall₂.nil
  | cons a l ih =>
    exact List.Forall₂.cons (h a (List.mem_cons_self a l))
      (ih (fun a2 ha => h a2 (List.mem_cons_of_mem a ha)))

/-- **C9.**  `process_node` modifies at most the `deprel` strings of entries
already present in the processed node's `deps`: the node list keeps its
length and order; every node keeps its `ord`, `form`, `lemma`, `upos`,
`xpos`, `feats`, `misc`, basic `deprel`, basic `parent`, the number of its
`deps` entries and each entry's enhanced parent; and every node other than
the processed one is entirely unchanged. -/
theorem c9_process_node_frame (t : List FNode) (o : Nat) :
    List.Forall₂ (fun n2 n =>
      n2.ord = n.ord ∧ n2.form = n.form ∧ n2.lemma_ = n.lemma_ ∧
      n2.upos = n.upos ∧ n2.xpos = n.xpos ∧ n2.feats = n.feats ∧
      n2.misc = n.misc ∧ n2.deprel = n.deprel ∧ n2.parent = n.parent ∧
      n2.deps.length = n.deps.length ∧
      List.Forall₂ (fun e2 e => e2.parent = e.parent) n2.deps n.deps ∧
      (n.ord ≠ o → n2 = n)) (process_node_at t o) t := by
  unfold process_node_at
  apply forall2_map_self
  intro n _
  by_cases ho : (n.ord == o) = true
  · rw [if_pos ho]
    unfold process_node
    refine ⟨rfl, rfl, rfl, rfl, rfl, rfl, rfl, rfl, rfl, List.length_map _ _, ?_, ?_⟩
    · exact forall2_map_self _ _ _ (fun e _ => rfl)
    · intro hne
      exact absurd (by simpa using ho) hne
  · rw [if_neg ho]
    refine ⟨rfl, rfl, rfl, rfl, rfl, rfl, rfl, rfl, rfl, rfl, ?_, fun _ => rfl⟩
    exact List.forall₂_same.mpr (fun e _ => rfl)

theorem matchBaseFrom_mem (bs : List PStr) (d b r : PStr)
    (h : matchBaseFrom bs d = some (b, r)) : b ∈ bs := by
  induction bs with
  | nil => exact absurd h (by simp [matchBaseFrom])
  | cons b0 tl ih =>
    unfold matchBaseFrom at h
    cases hc : chDrop? (b0 ++ ps (":")) d with
    | some rest =>
      simp only [hc] at h
      simp only [Option.some.injEq, Prod.mk.injEq] at h
      exact h.1 ▸ List.mem_cons_self b0 tl
    | none =>
      simp only [hc] at h
      exact List.mem_cons_of_mem b0 (ih h)

theorem outermostLoop_shape (b rest : PStr) (l : List (PStr × List PStr)) (r : PStr)
    (h : outermostLoop b rest l = some r) :
    ∃ x exc, (x, exc) ∈ l ∧ r = b ++ ps (":") ++ x := by
  induction l with
  | nil => exact absurd h (by simp [outermostLoop])
  | cons p tl ih =>
    obtain ⟨x, exc⟩ := p
    unfold outermostLoop at h
    cases hc : chDrop? x rest with
    | some suf =>
      simp only [hc] at h
      by_cases hok : (sufOk suf && !(exc.contains (x ++ suf))) = true
      · rw [if_pos hok] at h
        simp only [Option.some.injEq] at h
        exact ⟨x, exc, List.mem_cons_self _ _, h.symm⟩
      · rw [if_neg hok] at h
        obtain ⟨x2, e2, hm, he⟩ := ih h
        exact ⟨x2, e2, List.mem_cons_of_mem _ hm, he⟩
    | none =>
      simp only [hc] at h
      obtain ⟨x2, e2, hm, he⟩ := ih h
      exact ⟨x2, e2, List.mem_cons_of_mem _ hm, he⟩

theorem unambLoop_shape (b rest : PStr) (l : List (PStr × PStr)) (r : PStr)
    (h : unambLoop b rest l = some r) :
    ∃ x v, (x, v) ∈ l ∧ r = b ++ ps (":") ++ v := by
  induction l with
  | nil => exact absurd h (by simp [unambLoop])
  | cons p tl ih =>
    obtain ⟨x, v⟩ := p
    unfold unambLoop at h
    cases hc : chDrop? x rest with
    | some suf =>
      simp only [hc] at h
      by_cases hok : (suf == ([] : PStr) || caseSuffixes7.contains suf) = true
      · rw [if_pos hok] at h
        simp only [Option.some.injEq] at h
        exact ⟨x, v, List.mem_cons_self _ _, h.symm⟩
      · rw [if_neg hok] at h
        obtain ⟨x2, v2, hm, he⟩ := ih h
        exact ⟨x2, v2, List.mem_cons_of_mem _ hm, he⟩
    | none =>
      simp only [hc] at h
      obtain ⟨x2, v2, hm, he⟩ := ih h
      exact ⟨x2, v2, List.mem_cons_of_mem _ hm, he⟩

theorem copy_case_shape (ch : List FNode) (adp a : PStr)
    (h : copy_case_from_adposition ch adp = some a) :
    ∃ cs, a = adp ++ ps (":") ++ lowerL cs := by
  unfold copy_case_from_adposition at h
  cases hf : ch.filter (fun x => x.lemma_ == adp) with
  | nil => simp only [hf] at h; exact absurd h (by simp)
  | cons c tl =>
    simp only [hf] at h
    by_cases hcs : (featsGet (ps ("Case")) c.feats != ([] : PStr)) = true
    · rw [if_pos hcs] at h
      simp only [Option.some.injEq] at h
      exact ⟨featsGet (ps ("Case")) c.feats, h.symm⟩
    · rw [if_neg hcs] at h
      exact absurd h (by simp)

theorem uzApply_shape (ch : List FNode) (d r : PStr)
    (h : uzApply ch d = some r) :
    ∃ b s, b ∈ uzBases ∧ chEndsAny uzSuffixes4 (ps ("už:") ++ s) = false ∧
      r = b ++ ps (":") ++ (ps ("už:") ++ s) := by
  unfold uzApply at h
  cases hm : matchBaseFrom uzBases d with
  | none => simp only [hm] at h; exact absurd h (by simp)
  | some p =>
    obtain ⟨b, rest⟩ := p
    simp only [hm] at h
    by_cases hg : (rest == ps ("už") ||
        [ps ("už:nom"), ps ("už:gen"), ps ("už:dat"), ps ("už:voc")].contains rest) = true
    · rw [if_pos hg] at h
      cases hcc : copy_case_from_adposition ch (ps ("už")) with
      | none => simp only [hcc] at h; exact absurd h (by simp)
      | some adpcase =>
        simp only [hcc] at h
        obtain ⟨cs, hcs⟩ := copy_case_shape ch (ps ("už")) adpcase hcc
        by_cases hend : chEndsAny uzSuffixes4 adpcase = true
        · rw [if_pos hend] at h
          exact absurd h (by simp)
        · rw [if_neg hend] at h
          simp only [Option.some.injEq] at h
          refine ⟨b, lowerL cs, matchBaseFrom_mem uzBases d b rest hm, ?_, ?_⟩
          · have : adpcase = ps ("už:") ++ lowerL cs := hcs
            rw [← this]
            simpa using hend
          · rw [← h, hcs]
            rfl
    · rw [if_neg hg] at h
      exact absurd h (by simp)

theorem subPreConjLoop_shape (b rest : PStr) (conjs : List PStr) (l : List PStr)
    (r : PStr) (h : subPreConjLoop b rest conjs l = some r) :
    ∃ c, c ∈ conjs ∧ r = b ++ ps (":") ++ c := by
  induction l with
  | nil => exact absurd h (by simp [subPreConjLoop])
  | cons p tl ih =>
    unfold subPreConjLoop at h
    cases hc : chDrop? (p ++ ps ("_")) rest with
    | some c =>
      simp only [hc] at h
      by_cases hok : conjs.contains c = true
      · rw [if_pos hok] at h
        simp only [Option.some.injEq] at h
        exact ⟨c, by simpa using hok, h.symm⟩
      · rw [if_neg hok] at h
        exact ih h
    | none =>
      simp only [hc] at h
      exact ih h

theorem subConjTailLoop_shape (b rest : PStr) (l : List PStr) (r : PStr)
    (h : subConjTailLoop b rest l = some r) :
    ∃ c, c ∈ l ∧ r = b ++ ps (":") ++ c := by
  induction l with
  | nil => exact absurd h (by simp [subConjTailLoop])
  | cons c0 tl ih =>
    unfold subConjTailLoop at h
    cases hc : chDrop? (c0 ++ ps ("_")) rest with
    | some tl2 =>
      simp only [hc] at h
      by_cases hok : tails5.contains tl2 = true
      · rw [if_pos hok] at h
        simp only [Option.some.injEq] at h
        exact ⟨c0, List.mem_cons_self _ _, h.symm⟩
      · rw [if_neg hok] at h
        obtain ⟨c2, hm, he⟩ := ih h
        exact ⟨c2, List.mem_cons_of_mem _ hm, he⟩
    | none =>
      simp only [hc] at h
      obtain ⟨c2, hm, he⟩ := ih h
      exact ⟨c2, List.mem_cons_of_mem _ hm, he⟩

theorem subAt?_shape (d r : PStr) (h : subAt? d = some r) :
    ∃ b, b ∈ nmodOblBases ∧ r = b ++ ps (":ať") := by
  unfold subAt? at h
  cases hm : matchBaseFrom nmodOblBases d with
  | none => simp only [hm] at h; exact absurd h (by simp)
  | some p =>
    obtain ⟨b, rest⟩ := p
    simp only [hm] at h
    cases hc : chDrop? (ps ("ať:")) rest with
    | some tl =>
      simp only [hc] at h
      by_cases hok : (tl != ([] : PStr)) = true
      · rw [if_pos hok] at h
        simp only [Option.some.injEq] at h
        exact ⟨b, matchBaseFrom_mem _ _ _ _ hm, h.symm⟩
      · rw [if_neg hok] at h
        exact absurd h (by simp)
    | none =>
      simp only [hc] at h
      exact absurd h (by simp)

theorem subBeyond?_shape (d r : PStr) (h : subBeyond? d = some r) :
    r ∈ nmodOblBases := by
  unfold subBeyond? at h
  cases hm : matchBaseFrom nmodOblBases d with
  | none => simp only [hm] at h; exact absurd h (by simp)
  | some p =>
    obtain ⟨b, rest⟩ := p
    simp only [hm] at h
    cases hc : chDrop? (ps ("beyond")) rest with
    | some suf =>
      simp only [hc] at h
      by_cases hok : (suf == ([] : PStr) || sufOk suf) = true
      · rw [if_pos hok] at h
        simp only [Option.some.injEq] at h
        exact h ▸ matchBaseFrom_mem _ _ _ _ hm
      · rw [if_neg hok] at h
        exact absurd h (by simp)
    | none =>
      simp only [hc] at h
      exact absurd h (by simp)

theorem applyOr_cases (f : PStr → Option PStr) (d : PStr) :
    applyOr f d = d ∨ ∃ r, f d = some r ∧ applyOr f d = r := by
  unfold applyOr
  cases h : f d with
  | none => exact Or.inl rfl
  | some r => exact Or.inr ⟨r, rfl, rfl⟩

theorem d2_classify (d : PStr) :
    subAclK (subAdvclDo d) = d ∨ subAclK (subAdvclDo d) = ps ("obl:do:gen") ∨
      subAclK (subAdvclDo d) = ps ("acl") := by
  unfold subAdvclDo subAclK
  by_cases h1 : (d == ps ("advcl:do") || d == ps ("advcl:do:gen")) = true
  · rw [if_pos h1]
    right
    left
    rfl
  · rw [if_neg h1]
    by_cases h2 : (d == ps ("acl:k") || d == ps ("acl:k:dat")) = true
    · rw [if_pos h2]
      right
      right
      rfl
    · rw [if_neg h2]
      left
      rfl

theorem subPreConj_shape (pres conjs : List PStr) (d r : PStr)
    (h : subPreConj pres conjs d = some r) :
    ∃ b c, b ∈ aclAdvclBases ∧ c ∈ conjs ∧ r = b ++ ps (":") ++ c := by
  unfold subPreConj at h
  cases hm : matchBaseFrom aclAdvclBases d with
  | none => simp only [hm] at h; exact absurd h (by simp)
  | some p =>
    obtain ⟨b, rest⟩ := p
    simp only [hm] at h
    obtain ⟨c, hcm, hce⟩ := subPreConjLoop_shape b rest conjs pres r h
    exact ⟨b, c, matchBaseFrom_mem _ _ _ _ hm, hcm, hce⟩

theorem subConjTail_shape (d r : PStr) (h : subConjTail d = some r) :
    ∃ b c, b ∈ aclAdvclBases ∧ c ∈ conjs8 ∧ r = b ++ ps (":") ++ c := by
  unfold subConjTail at h
  cases hm : matchBaseFrom aclAdvclBases d with
  | none => simp only [hm] at h; exact absurd h (by simp)
  | some p =>
    obtain ⟨b, rest⟩ := p
    simp only [hm] at h
    obtain ⟨c, hcm, hce⟩ := subConjTailLoop_shape b rest conjs8 r h
    exact ⟨b, c, matchBaseFrom_mem _ _ _ _ hm, hcm, hce⟩

theorem tail_classify (d : PStr) :
    tailRules d = d ∨
    (∃ b c, b ∈ aclAdvclBases ∧ c ∈ conjs8 ∧ tailRules d = b ++ ps (":") ++ c) ∨
    (∃ b, b ∈ nmodOblBases ∧ tailRules d = b ++ ps (":ať")) ∨
    (∃ b, b ∈ nmodOblBases ∧ tailRules d = b) := by
  unfold tailRules
  by_cases e1 : (chStarts (ps ("acl:")) d || chStarts (ps ("advcl:")) d) = true
  · rw [if_pos e1]
    rcases applyOr_cases subConjTail
        (applyOr (subPreConj [ps ("i")] conjs5)
          (applyOr (subPreConj redundantPre11 conjs8) d)) with h3 | ⟨r3, hf3, h3⟩
    · rw [h3]
      rcases applyOr_cases (subPreConj [ps ("i")] conjs5)
          (applyOr (subPreConj redundantPre11 conjs8) d) with h2 | ⟨r2, hf2, h2⟩
      · rw [h2]
        rcases applyOr_cases (subPreConj redundantPre11 conjs8) d with h1 | ⟨r1, hf1, h1⟩
        · rw [h1]
          exact Or.inl rfl
        · rw [h1]
          obtain ⟨b, c, hbm, hcm, hce⟩ := subPreConj_shape redundantPre11 conjs8 d r1 hf1
          exact Or.inr (Or.inl ⟨b, c, hbm, hcm, hce⟩)
      · rw [h2]
        obtain ⟨b, c, hbm, hcm, hce⟩ := subPreConj_shape [ps ("i")] conjs5 _ r2 hf2
        have hc8 : c ∈ conjs8 := by
          have hsub : ∀ x, x ∈ conjs5 → x ∈ conjs8 := by decide
          exact hsub c hcm
        exact Or.inr (Or.inl ⟨b, c, hbm, hc8, hce⟩)
    · rw [h3]
      obtain ⟨b, c, hbm, hcm, hce⟩ := subConjTail_shape _ r3 hf3
      exact Or.inr (Or.inl ⟨b, c, hbm, hcm, hce⟩)
  · rw [if_neg e1]
    by_cases e2 : (chStarts (ps ("nmod:")) d || chStarts (ps ("obl:")) d) = true
    · rw [if_pos e2]
      rcases applyOr_cases subBeyond? (applyOr subAt? d) with h2 | ⟨r2, hf2, h2⟩
      · rw [h2]
        rcases applyOr_cases subAt? d with h1 | ⟨r1, hf1, h1⟩
        · rw [h1]
          exact Or.inl rfl
        · rw [h1]
          obtain ⟨b, hbm, hbe⟩ := subAt?_shape d r1 hf1
          exact Or.inr (Or.inr (Or.inl ⟨b, hbm, hbe⟩))
      · rw [h2]
        exact Or.inr (Or.inr (Or.inr ⟨r2, subBeyond?_shape _ _ hf2, rfl⟩))
    · rw [if_neg e2]
      exact Or.inl rfl

theorem fix_outermost_out (ch : List FNode) (b x : PStr) (hb : b ∈ bigBases)
    (hx : x ∈ [ps ("kaip"), ps ("než"), ps ("třebaže")]) :
    processDeprel ch (b ++ ps (":") ++ x) = b ++ ps (":") ++ x := by
  fin_cases hb <;> fin_cases hx <;> rfl

theorem fix_unamb_out (ch : List FNode) (b x v : PStr) (hb : b ∈ bigBases)
    (hxv : (x, v) ∈ unambiguous) :
    processDeprel ch (b ++ ps (":") ++ v) = b ++ ps (":") ++ v := by
  fin_cases hb <;> fin_cases hxv <;> rfl

theorem fix_conj_out (ch : List FNode) (b c : PStr) (hb : b ∈ aclAdvclBases)
    (hc : c ∈ conjs8) :
    processDeprel ch (b ++ ps (":") ++ c) = b ++ ps (":") ++ c := by
  fin_cases hb <;> fin_cases hc <;> rfl

theorem fix_at_out (ch : List FNode) (b : PStr) (hb : b ∈ nmodOblBases) :
    processDeprel ch (b ++ ps (":ať")) = b ++ ps (":ať") := by
  fin_cases hb <;> rfl

theorem fix_base_out (ch : List FNode) (b : PStr) (hb : b ∈ nmodOblBases) :
    processDeprel ch b = b := by
  fin_cases hb <;> rfl

theorem fix_dogen_out (ch : List FNode) :
    processDeprel ch (ps ("obl:do:gen")) = ps ("obl:do:gen") := rfl

theorem fix_acl_out (ch : List FNode) :
    processDeprel ch (ps ("acl")) = ps ("acl") := rfl

theorem uz_ne_cases (s : PStr)
    (hend : chEndsAny uzSuffixes4 (ps ("už:") ++ s) = false) :
    s ≠ ps ("nom") ∧ s ≠ ps ("gen") ∧ s ≠ ps ("dat") ∧ s ≠ ps ("voc") := by
  refine ⟨?_, ?_, ?_, ?_⟩ <;> intro hs <;> subst hs <;> exact absurd hend (by decide)

theorem uzGuard_false (s : PStr) (h1 : s ≠ ps ("nom")) (h2 : s ≠ ps ("gen"))
    (h3 : s ≠ ps ("dat")) (h4 : s ≠ ps ("voc")) :
    ((ps ("už:") ++ s) == ps ("už") ||
      [ps ("už:nom"), ps ("už:gen"), ps ("už:dat"), ps ("už:voc")].contains
        (ps ("už:") ++ s)) = false := by
  have e : ps ("už:") ++ s = 'u' :: 'ž' :: ':' :: s := rfl
  have e0 : ps ("už") = 'u' :: 'ž' :: ([] : PStr) := rfl
  have e1 : ps ("už:nom") = 'u' :: 'ž' :: ':' :: ps ("nom") := rfl
  have e2 : ps ("už:gen") = 'u' :: 'ž' :: ':' :: ps ("gen") := rfl
  have e3 : ps ("už:dat") = 'u' :: 'ž' :: ':' :: ps ("dat") := rfl
  have e4 : ps ("už:voc") = 'u' :: 'ž' :: ':' :: ps ("voc") := rfl
  rw [e, e0, e1, e2, e3, e4]
  simp [List.contains, h1, h2, h3, h4]

theorem fix_uz_out (ch : List FNode) (b s : PStr) (hb : b ∈ uzBases)
    (hend : chEndsAny uzSuffixes4 (ps ("už:") ++ s) = false) :
    processDeprel ch (b ++ ps (":") ++ (ps ("už:") ++ s)) =
      b ++ ps (":") ++ (ps ("už:") ++ s) := by
  obtain ⟨h1, h2, h3, h4⟩ := uz_ne_cases s hend
  have hg := uzGuard_false s h1 h2 h3 h4
  fin_cases hb
  · have hmb : matchBaseFrom uzBases (ps ("obl:arg") ++ ps (":") ++ (ps ("už:") ++ s)) =
        some (ps ("obl:arg"), ps ("už:") ++ s) := rfl
    have huz : uzApply ch (ps ("obl:arg") ++ ps (":") ++ (ps ("už:") ++ s)) = none := by
      unfold uzApply
      simp only [hmb]
      rw [if_neg (by rw [hg]; simp)]
    have hred : processDeprel ch (ps ("obl:arg") ++ ps (":") ++ (ps ("už:") ++ s)) =
        match uzApply ch (ps ("obl:arg") ++ ps (":") ++ (ps ("už:") ++ s)) with
        | some d3 => d3
        | none => ps ("obl:arg") ++ ps (":") ++ (ps ("už:") ++ s) := rfl
    rw [hred, huz]
  · have hmb : matchBaseFrom uzBases (ps ("obl") ++ ps (":") ++ (ps ("už:") ++ s)) =
        some (ps ("obl"), ps ("už:") ++ s) := rfl
    have huz : uzApply ch (ps ("obl") ++ ps (":") ++ (ps ("už:") ++ s)) = none := by
      unfold uzApply
      simp only [hmb]
      rw [if_neg (by rw [hg]; simp)]
    have hred : processDeprel ch (ps ("obl") ++ ps (":") ++ (ps ("už:") ++ s)) =
        match uzApply ch (ps ("obl") ++ ps (":") ++ (ps ("už:") ++ s)) with
        | some d3 => d3
        | none => ps ("obl") ++ ps (":") ++ (ps ("už:") ++ s) := rfl
    rw [hred, huz]
  · have hmb : matchBaseFrom uzBases (ps ("nmod") ++ ps (":") ++ (ps ("už:") ++ s)) =
        some (ps ("nmod"), ps ("už:") ++ s) := rfl
    have huz : uzApply ch (ps ("nmod") ++ ps (":") ++ (ps ("už:") ++ s)) = none := by
      unfold uzApply
      simp only [hmb]
      rw [if_neg (by rw [hg]; simp)]
    have hred : processDeprel ch (ps ("nmod") ++ ps (":") ++ (ps ("už:") ++ s)) =
        match uzApply ch (ps ("nmod") ++ ps (":") ++ (ps ("už:") ++ s)) with
        | some d3 => d3
        | none => ps ("nmod") ++ ps (":") ++ (ps ("už:") ++ s) := rfl
    rw [hred, huz]

theorem outermost_key_mem (x : PStr) (exc : List PStr) (h : (x, exc) ∈ outermost) :
    x ∈ [ps ("kaip"), ps ("než"), ps ("třebaže")] := by
  fin_cases h <;> simp

/-- Every output of `processDeprel` is either the input itself or falls in
one of the finitely many rewrite families. -/
theorem pd_classify (ch : List FNode) (d : PStr) :
    processDeprel ch d = d ∨
    (∃ b x, b ∈ bigBases ∧ x ∈ [ps ("kaip"), ps ("než"), ps ("třebaže")] ∧
        processDeprel ch d = b ++ ps (":") ++ x) ∨
    (∃ b x v, b ∈ bigBases ∧ (x, v) ∈ unambiguous ∧
        processDeprel ch d = b ++ ps (":") ++ v) ∨
    (∃ b s, b ∈ uzBases ∧ chEndsAny uzSuffixes4 (ps ("už:") ++ s) = false ∧
        processDeprel ch d = b ++ ps (":") ++ (ps ("už:") ++ s)) ∨
    (∃ b c, b ∈ aclAdvclBases ∧ c ∈ conjs8 ∧
        processDeprel ch d = b ++ ps (":") ++ c) ∨
    (∃ b, b ∈ nmodOblBases ∧ processDeprel ch d = b ++ ps (":ať")) ∨
    (∃ b, b ∈ nmodOblBases ∧ processDeprel ch d = b) ∨
    processDeprel ch d = ps ("obl:do:gen") ∨ processDeprel ch d = ps ("acl") := by
  by_cases hbig : bigMatchB d = true
  · have hpd0 : processDeprel ch d =
        match outermostApply (subAclK (subAdvclDo d)) with
        | some d3 => d3
        | none =>
          match unambApply (subAclK (subAdvclDo d)) with
          | some d3 => d3
          | none =>
            match uzApply ch (subAclK (subAdvclDo d)) with
            | some d3 => d3
            | none => tailRules (subAclK (subAdvclDo d)) := by
      simp only [processDeprel, hbig, if_true]
    cases ho : outermostApply (subAclK (subAdvclDo d)) with
    | some r =>
      simp only [ho] at hpd0
      unfold outermostApply at ho
      cases hm : matchBaseFrom bigBases (subAclK (subAdvclDo d)) with
      | none => simp only [hm] at ho; exact absurd ho (by simp)
      | some p =>
        obtain ⟨b, rest⟩ := p
        simp only [hm] at ho
        obtain ⟨x, exc, hxm, hxe⟩ := outermostLoop_shape b rest outermost r ho
        exact Or.inr (Or.inl ⟨b, x, matchBaseFrom_mem _ _ _ _ hm,
          outermost_key_mem x exc hxm, hxe ▸ hpd0⟩)
    | none =>
      simp only [ho] at hpd0
      cases hu : unambApply (subAclK (subAdvclDo d)) with
      | some r =>
        simp only [hu] at hpd0
        unfold unambApply at hu
        cases hm : matchBaseFrom bigBases (subAclK (subAdvclDo d)) with
        | none => simp only [hm] at hu; exact absurd hu (by simp)
        | some p =>
          obtain ⟨b, rest⟩ := p
          simp only [hm] at hu
          obtain ⟨x, v, hxm, hxe⟩ := unambLoop_shape b rest unambiguous r hu
          exact Or.inr (Or.inr (Or.inl ⟨b, x, v, matchBaseFrom_mem _ _ _ _ hm,
            hxm, hxe ▸ hpd0⟩))
      | none =>
        simp only [hu] at hpd0
        cases huz : uzApply ch (subAclK (subAdvclDo d)) with
        | some r =>
          simp only [huz] at hpd0
          obtain ⟨b, s, hbm, hse, hre⟩ := uzApply_shape ch _ r huz
          exact Or.inr (Or.inr (Or.inr (Or.inl ⟨b, s, hbm, hse, hre ▸ hpd0⟩)))
        | none =>
          simp only [huz] at hpd0
          rcases d2_classify d with hd2 | hd2 | hd2
          · rw [hd2] at hpd0
            rcases tail_classify d with ht | ⟨b, c, hbm, hcm, ht⟩ |
              ⟨b, hbm, ht⟩ | ⟨b, hbm, ht⟩
            · exact Or.inl (by rw [hpd0, ht])
            · exact Or.inr (Or.inr (Or.inr (Or.inr (Or.inl
                ⟨b, c, hbm, hcm, by rw [hpd0, ht]⟩))))
            · exact Or.inr (Or.inr (Or.inr (Or.inr (Or.inr (Or.inl
                ⟨b, hbm, by rw [hpd0, ht]⟩)))))
            · exact Or.inr (Or.inr (Or.inr (Or.inr (Or.inr (Or.inr (Or.inl
                ⟨b, hbm, by rw [hpd0, ht]⟩))))))
          · rw [hd2] at hpd0
            exact Or.inr (Or.inr (Or.inr (Or.inr (Or.inr (Or.inr (Or.inr
              (Or.inl (by rw [hpd0]; rfl))))))))
          · rw [hd2] at hpd0
            exact Or.inr (Or.inr (Or.inr (Or.inr (Or.inr (Or.inr (Or.inr
              (Or.inr (by rw [hpd0]; rfl))))))))
  · have hb2 : bigMatchB d = false := by simpa using hbig
    have hpd0 : processDeprel ch d = tailRules d := by
      simp [processDeprel, hb2]
    rcases tail_classify d with ht | ⟨b, c, hbm, hcm, ht⟩ | ⟨b, hbm, ht⟩ | ⟨b, hbm, ht⟩
    · exact Or.inl (by rw [hpd0, ht])
    · exact Or.inr (Or.inr (Or.inr (Or.inr (Or.inl
        ⟨b, c, hbm, hcm, by rw [hpd0, ht]⟩))))
    · exact Or.inr (Or.inr (Or.inr (Or.inr (Or.inr (Or.inl
        ⟨b, hbm, by rw [hpd0, ht]⟩)))))
    · exact Or.inr (Or.inr (Or.inr (Or.inr (Or.inr (Or.inr (Or.inl
        ⟨b, hbm, by rw [hpd0, ht]⟩))))))

/-- The per-relation rewrite of `process_node` is idempotent. -/
theorem processDeprel_idem (ch : List FNode) (d : PStr) :
    processDeprel ch (processDeprel ch d) = processDeprel ch d := by
  rcases pd_classify ch d with h | ⟨b, x, hb, hx, h⟩ | ⟨b, x, v, hb, hxv, h⟩ |
    ⟨b, s, hb, hend, h⟩ | ⟨b, c, hb, hc, h⟩ | ⟨b, hb, h⟩ | ⟨b, hb, h⟩ | h | h
  · rw [h]
    exact h
  · rw [h]
    exact fix_outermost_out ch b x hb hx
  · rw [h]
    exact fix_unamb_out ch b x v hb hxv
  · rw [h]
    exact fix_uz_out ch b s hb hend
  · rw [h]
    exact fix_conj_out ch b c hb hc
  · rw [h]
    exact fix_at_out ch b hb
  · rw [h]
    exact fix_base_out ch b hb
  · rw [h]
    exact fix_dogen_out ch
  · rw [h]
    exact fix_acl_out ch

theorem childrenOf_map (t : List FNode) (f : FNode → FNode)
    (hf : ∀ n, (f n).parent = n.parent) (o : Nat) :
    childrenOf (t.map f) o = (childrenOf t o).map f := by
  unfold childrenOf
  rw [List.filter_map]
  congr 1
  apply List.filter_congr
  intro a _
  simp [Function.comp, hf a]

theorem copy_case_map (t : List FNode) (f : FNode → FNode)
    (hl : ∀ n, (f n).lemma_ = n.lemma_) (hfe : ∀ n, (f n).feats = n.feats)
    (adp : PStr) :
    copy_case_from_adposition (t.map f) adp = copy_case_from_adposition t adp := by
  unfold copy_case_from_adposition
  rw [List.filter_map]
  have hp : ((fun x => x.lemma_ == adp) ∘ f) = (fun x => x.lemma_ == adp) := by
    funext n
    simp [Function.comp, hl n]
  rw [hp]
  cases hfl : t.filter (fun x => x.lemma_ == adp) with
  | nil => simp [hfl]
  | cons c tl => simp [hfl, hfe c]

theorem processDeprel_congr (ch1 ch2 : List FNode)
    (hcc : copy_case_from_adposition ch1 (ps ("už")) =
      copy_case_from_adposition ch2 (ps ("už"))) (d : PStr) :
    processDeprel ch1 d = processDeprel ch2 d := by
  have huz : uzApply ch1 (subAclK (subAdvclDo d)) =
      uzApply ch2 (subAclK (subAdvclDo d)) := by
    unfold uzApply
    rw [hcc]
  unfold processDeprel
  rw [huz]

theorem process_node_parent (t : List FNode) (n : FNode) :
    (process_node t n).parent = n.parent := rfl

theorem process_node_idem_step (t t2 : List FNode) (n : FNode)
    (hcc : copy_case_from_adposition (childrenOf t2 n.ord) (ps ("už")) =
      copy_case_from_adposition (childrenOf t n.ord) (ps ("už"))) :
    process_node t2 (process_node t n) = process_node t n := by
  have hdeps : (process_node t n).deps.map (fun e =>
      { e with deprel := (processDeprel (childrenOf t2 (process_node t n).ord)
          e.deprel) }) = (process_node t n).deps := by
    have hdeps0 : (process_node t n).deps = n.deps.map (fun e =>
        { e with deprel := processDeprel (childrenOf t n.ord) e.deprel }) := rfl
    rw [hdeps0, List.map_map]
    apply List.map_congr_left
    intro e _
    show ({ e with deprel := (processDeprel (childrenOf t2 (process_node t n).ord)
        (processDeprel (childrenOf t n.ord) e.deprel)) } : Edep) = _
    rw [show (process_node t n).ord = n.ord from rfl]
    rw [processDeprel_congr _ _ hcc]
    rw [processDeprel_idem]
  show ({ process_node t n with deps := ((process_node t n).deps.map (fun e =>
      { e with deprel := (processDeprel (childrenOf t2 (process_node t n).ord)
          e.deprel) })) } : FNode) = process_node t n
  rw [hdeps]

/-- **C10.**  `process_node` is idempotent: applying it a second time to the
same node (the tree otherwise unchanged) leaves every entry of the node's
`deps` with the same `deprel` value it had after the first application —
indeed the whole tree is unchanged. -/
theorem c10_process_node_idem (t : List FNode) (o : Nat) :
    process_node_at (process_node_at t o) o = process_node_at t o := by
  unfold process_node_at
  rw [List.map_map]
  apply List.map_congr_left
  intro n _
  have hfpar : ∀ m, ((fun m2 => if m2.ord == o then process_node t m2 else m2) m).parent
      = m.parent := by
    intro m
    by_cases hm : (m.ord == o) = true
    · simp only [hm, if_true]
      rfl
    · simp only [hm, Bool.false_eq_true, if_false]
  have hflem : ∀ m, ((fun m2 => if m2.ord == o then process_node t m2 else m2) m).lemma_
      = m.lemma_ := by
    intro m
    by_cases hm : (m.ord == o) = true
    · simp only [hm, if_true]
      rfl
    · simp only [hm, Bool.false_eq_true, if_false]
  have hffe : ∀ m, ((fun m2 => if m2.ord == o then process_node t m2 else m2) m).feats
      = m.feats := by
    intro m
    by_cases hm : (m.ord == o) = true
    · simp only [hm, if_true]
      rfl
    · simp only [hm, Bool.false_eq_true, if_false]
  show (fun m => if m.ord == o then
      process_node (t.map (fun m2 => if m2.ord == o then process_node t m2 else m2)) m
    else m) (if n.ord == o then process_node t n else n) =
    (if n.ord == o then process_node t n else n)
  by_cases ho : (n.ord == o) = true
  · rw [if_pos ho]
    show (if (process_node t n).ord == o then
        process_node (t.map (fun m2 => if m2.ord == o then process_node t m2 else m2))
          (process_node t n)
      else process_node t n) = process_node t n
    rw [if_pos (by rw [show (process_node t n).ord = n.ord from rfl]; exact ho)]
    refine process_node_idem_step t _ n ?_
    rw [childrenOf_map t _ hfpar n.ord]
    exact copy_case_map _ _ hflem hffe _
  · rw [if_neg (by simp [ho])]
    show (if n.ord == o then
        process_node (t.map (fun m2 => if m2.ord == o then process_node t m2 else m2)) n
      else n) = n
    rw [if_neg (by simp [ho])]

end FixEdeprels

theorem splitSep_ne_nil {α : Type} [DecidableEq α] (sep : α) (l : List α) :
    splitSep sep l ≠ [] := by
  cases l with
  | nil => simp [splitSep]
  | cons a rest =>
    unfold splitSep
    cases hs : splitSep sep rest with
    | nil =>
      by_cases ha : a = sep <;> simp [ha]
    | cons hd tl =>
      by_cases ha : a = sep <;> simp [ha]

theorem joinS_splitSep {α : Type} [DecidableEq α] (sep : α) (l : List α) :
    joinS sep (splitSep sep l) = l := by
  induction l with
  | nil => rfl
  | cons a rest ih =>
    cases hs : splitSep sep rest with
    | nil => exact absurd hs (splitSep_ne_nil sep rest)
    | cons hd tl =>
      rw [hs] at ih
      by_cases ha : a = sep
      · have hsplit : splitSep sep (a :: rest) = [] :: hd :: tl := by
          simp [splitSep, hs, ha]
        rw [hsplit]
        show ([] : List α) ++ sep :: joinS sep (hd :: tl) = a :: rest
        rw [List.nil_append, ih, ha]
      · have hsplit : splitSep sep (a :: rest) = (a :: hd) :: tl := by
          simp [splitSep, hs, ha]
        rw [hsplit]
        cases tl with
        | nil =>
          show a :: hd = a :: rest
          rw [show joinS sep [hd] = hd from rfl] at ih
          rw [ih]
        | cons t1 t2 =>
          show a :: joinS sep (hd :: t1 :: t2) = a :: rest
          rw [ih]

theorem optMapM_some {α β : Type} (g : α → Option β) (xs : List α)
    (h : ∀ a ∈ xs, (g a).isSome) : ∃ ys, optMapM g xs = some ys := by
  induction xs with
  | nil => exact ⟨[], rfl⟩
  | cons a xs ih =>
    obtain ⟨b, hb⟩ := Option.isSome_iff_exists.mp (h a (List.mem_cons_self a xs))
    obtain ⟨ys, hys⟩ := ih (fun a2 ha => h a2 (List.mem_cons_of_mem a ha))
    exact ⟨b :: ys, by simp [optMapM, hb, hys]⟩

theorem optMapM_reconstruct {α β : Type} (g : α → Option β) (w : β → α)
    (xs : List α) (ys : List β) (h : optMapM g xs = some ys)
    (hp : ∀ a ∈ xs, ∀ b, g a = some b → w b = a) : ys.map w = xs := by
  induction xs generalizing ys with
  | nil =>
    simp only [optMapM, Option.some.injEq] at h
    rw [← h]
    rfl
  | cons a xs ih =>
    unfold optMapM at h
    cases hg : g a with
    | none => rw [hg] at h; exact Option.noConfusion h
    | some b =>
      simp only [hg] at h
      cases hm : optMapM g xs with
      | none => rw [hm] at h; exact Option.noConfusion h
      | some bs =>
        simp only [hm, Option.some.injEq] at h
        rw [← h]
        simp only [List.map_cons]
        rw [hp a (List.mem_cons_self a xs) b hg,
          ih bs hm (fun a2 ha => hp a2 (List.mem_cons_of_mem a ha))]

theorem optMapM_length {α β : Type} (g : α → Option β) (xs : List α) (ys : List β)
    (h : optMapM g xs = some ys) : ys.length = xs.length := by
  induction xs generalizing ys with
  | nil =>
    simp only [optMapM, Option.some.injEq] at h
    rw [← h]
    rfl
  | cons a xs ih =>
    unfold optMapM at h
    cases hg : g a with
    | none => rw [hg] at h; exact Option.noConfusion h
    | some b =>
      simp only [hg] at h
      cases hm : optMapM g xs with
      | none => rw [hm] at h; exact Option.noConfusion h
      | some bs =>
        simp only [hm, Option.some.injEq] at h
        rw [← h]
        simp [ih bs hm]

theorem dropLast_append_of_getLast? {α : Type} (l : List α) (x : α)
    (h : l.getLast? = some x) : l.dropLast ++ [x] = l := by
  induction l with
  | nil => simp at h
  | cons a rest ih =>
    cases rest with
    | nil =>
      simp only [List.getLast?_singleton, Option.some.injEq] at h
      rw [h]
      rfl
    | cons b t =>
      rw [List.getLast?_cons_cons] at h
      have := ih h
      rw [List.dropLast_cons₂, List.cons_append, this]

namespace Conllu

theorem digit_roundtrip (c : Char) (h : isDigitCh c = true) :
    digitChar (digitVal c) = c ∧ digitVal c < 10 := by
  have hm : c ∈ ['0', '1', '2', '3', '4', '5', '6', '7', '8', '9'] := by
    simpa [isDigitCh] using h
  fin_cases hm <;> exact ⟨rfl, by decide⟩

theorem digit_pos (c : Char) (h : isDigitCh c = true) (h0 : c ≠ '0') :
    1 ≤ digitVal c := by
  have hm : c ∈ ['0', '1', '2', '3', '4', '5', '6', '7', '8', '9'] := by
    simpa [isDigitCh] using h
  fin_cases hm
  · exact absurd rfl h0
  all_goals decide

theorem digitsValFrom_ge (a : Nat) (s : PStr) :
    a ≤ s.foldl (fun x c => 10 * x + digitVal c) a := by
  induction s generalizing a with
  | nil => exact le_refl a
  | cons c r ih =>
    rw [List.foldl_cons]
    refine le_trans ?_ (ih (10 * a + digitVal c))
    omega

theorem natChars_lt (n : Nat) (h : n < 10) : natChars n = [digitChar n] := by
  rw [natChars.eq_def, dif_pos h]

theorem natChars_ge (n : Nat) (h : ¬ n < 10) :
    natChars n = natChars (n / 10) ++ [digitChar (n % 10)] := by
  conv_lhs => rw [natChars.eq_def]
  rw [dif_neg h]

theorem natChars_step (v d : Nat) (hv : 0 < v) (hd10 : d < 10) :
    natChars (10 * v + d) = natChars v ++ [digitChar d] := by
  have h10 : ¬ (10 * v + d < 10) := by omega
  rw [natChars_ge _ h10]
  have h1 : (10 * v + d) / 10 = v := by omega
  have h2 : (10 * v + d) % 10 = d := by omega
  rw [h1, h2]

theorem natChars_foldl (s : PStr) (hdg : ∀ c ∈ s, isDigitCh c = true)
    (a : Nat) (ha : 0 < a) :
    natChars (s.foldl (fun x c => 10 * x + digitVal c) a) = natChars a ++ s := by
  induction s using List.reverseRecOn with
  | nil => simp
  | append_singleton s c ih =>
    have hc : isDigitCh c = true := hdg c (by simp)
    have hs : ∀ x ∈ s, isDigitCh x = true := fun x hx => hdg x (by simp [hx])
    rw [List.foldl_append]
    have hva := digitsValFrom_ge a s
    rw [show List.foldl (fun x c => 10 * x + digitVal c)
        (List.foldl (fun x c => 10 * x + digitVal c) a s) [c]
        = 10 * (List.foldl (fun x c => 10 * x + digitVal c) a s) + digitVal c from rfl]
    rw [natChars_step _ _ (by omega) (digit_roundtrip c hc).2]
    rw [(digit_roundtrip c hc).1, ih hs]
    rw [List.append_assoc]

theorem natChars_canon_inv (s : PStr) (h : natCanon s = true) :
    natChars (digitsVal s) = s := by
  cases s with
  | nil => exact absurd h (by simp [natCanon])
  | cons c rest =>
    simp only [natCanon, Bool.and_eq_true] at h
    obtain ⟨⟨hc, hall⟩, hlead⟩ := h
    have hfold : digitsVal (c :: rest)
        = rest.foldl (fun x ch => 10 * x + digitVal ch) (digitVal c) := by
      simp [digitsVal]
    cases rest with
    | nil =>
      rw [hfold]
      show natChars (digitVal c) = [c]
      rw [natChars_lt _ (digit_roundtrip c hc).2, (digit_roundtrip c hc).1]
    | cons r1 r2 =>
      have hne : c ≠ '0' := by
        intro he
        rw [he] at hlead
        simp at hlead
      have hall2 : ∀ x ∈ r1 :: r2, isDigitCh x = true := by
        intro x hx
        exact List.all_eq_true.mp hall x hx
      rw [hfold, natChars_foldl _ hall2 _ (digit_pos c hc hne)]
      rw [natChars_lt _ (digit_roundtrip c hc).2, (digit_roundtrip c hc).1]
      rfl

end Conllu

namespace Conllu

theorem parseId_write (s : PStr) (i : TokId) (h : parseId s = some i) :
    idChars i = s := by
  unfold parseId at h
  split at h
  · rename_i hc
    cases h
    show natChars (digitsVal s) = s
    exact natChars_canon_inv s hc
  · rename_i hc
    split at h
    · rename_i a b heq
      split at h
      · rename_i hab
        cases h
        show natChars (digitsVal a) ++ '-' :: natChars (digitsVal b) = s
        simp only [Bool.and_eq_true] at hab
        obtain ⟨ha, hb⟩ := hab
        rw [natChars_canon_inv a ha, natChars_canon_inv b hb]
        have hj := joinS_splitSep '-' s
        rw [heq] at hj
        exact hj
      · exact Option.noConfusion h
    · rename_i hich
      split at h
      · rename_i a b heq
        split at h
        · rename_i hab
          cases h
          show natChars (digitsVal a) ++ '.' :: natChars (digitsVal b) = s
          simp only [Bool.and_eq_true] at hab
          obtain ⟨ha, hb⟩ := hab
          rw [natChars_canon_inv a ha, natChars_canon_inv b hb]
          have hj := joinS_splitSep '.' s
          rw [heq] at hj
          exact hj
        · exact Option.noConfusion h
      · exact Option.noConfusion h

theorem us_round (s : PStr) (h : s ≠ ([] : PStr)) : usEncode (usDecode s) = s := by
  by_cases hu : s = ps ("_")
  · rw [hu]; rfl
  · rw [show usDecode s = s from by simp [usDecode, hu]]
    simp [usEncode, h]

theorem splitFirstCh_reconstruct (c : Char) (s a b : PStr)
    (h : splitFirstCh c s = some (a, b)) : a ++ c :: b = s := by
  induction s generalizing a b with
  | nil => exact Option.noConfusion h
  | cons x rest ih =>
    unfold splitFirstCh at h
    by_cases hx : x = c
    · rw [if_pos hx] at h
      cases h
      rw [hx]
      rfl
    · rw [if_neg hx] at h
      cases hm : splitFirstCh c rest with
      | none => rw [hm] at h; exact Option.noConfusion h
      | some p =>
        obtain ⟨p1, p2⟩ := p
        simp only [hm, Option.some.injEq, Prod.mk.injEq] at h
        rw [← h.1, ← h.2, List.cons_append, ih p1 p2 hm]

theorem parseHead_write (s : PStr) (o : Option Nat) (h : parseHead s = some o) :
    writeHead o = s := by
  unfold parseHead at h
  by_cases hu : s = ps ("_")
  · rw [if_pos (by simp [hu])] at h
    cases h
    rw [hu]
    rfl
  · rw [if_neg (by simp [hu])] at h
    by_cases hn : natCanon s = true
    · rw [if_pos hn] at h
      cases h
      show natChars (digitsVal s) = s
      exact natChars_canon_inv s hn
    · rw [if_neg hn] at h
      exact Option.noConfusion h

theorem isortBy_sorted_id {α : Type} (lt le : α → α → Bool)
    (hc : ∀ a b, lt a b = true → le a b = true) (l : List α)
    (hs : strictSortedBy lt l = true) : isortBy le l = l := by
  induction l with
  | nil => rfl
  | cons x xs ih =>
    cases xs with
    | nil => rfl
    | cons y r =>
      simp only [strictSortedBy, Bool.and_eq_true] at hs
      show insertSorted le x (isortBy le (y :: r)) = x :: y :: r
      rw [ih hs.2]
      show (if le x y = true then x :: y :: r else y :: insertSorted le x r)
        = x :: y :: r
      rw [if_pos (hc x y hs.1)]

theorem ltKeys_leKeys (p q : PStr × PStr) (h : ltKeys p q = true) :
    leKeys p q = true := by
  unfold ltKeys at h
  unfold leKeys
  cases hcl : cmpCL p.1 q.1 <;> rw [hcl] at h <;> revert h <;> decide

theorem ltDep_leDep (p q : DepPair) (h : ltDep p q = true) :
    leDep p q = true := by
  unfold ltDep at h
  unfold leDep
  cases hcl : cmpDep p q <;> rw [hcl] at h <;> revert h <;> decide

theorem parseDep_write (s : PStr) (p : DepPair) (h : parseDep s = some p) :
    depChars p = s := by
  unfold parseDep at h
  cases hm : splitFirstCh ':' s with
  | none => rw [hm] at h; exact Option.noConfusion h
  | some q =>
    obtain ⟨h1, r⟩ := q
    simp only [hm] at h
    cases hi : parseId h1 with
    | none => rw [hi] at h; exact Option.noConfusion h
    | some i =>
      rw [hi] at h
      simp only [Option.map_some'] at h
      cases h
      show idChars i ++ ':' :: r = s
      rw [parseId_write h1 i hi]
      exact splitFirstCh_reconstruct ':' s h1 r hm

theorem parseAVList_writeFeats (s : PStr) (l : List (PStr × PStr))
    (hp : parseAVList s = some l) (hs : strictSortedBy ltKeys l = true) :
    writeFeats l = s := by
  unfold parseAVList at hp
  by_cases hu : (s == ps ("_")) = true
  · rw [if_pos hu] at hp
    cases hp
    show ps ("_") = s
    rw [beq_iff_eq.mp hu]
  · rw [if_neg hu] at hp
    have hlen := optMapM_length _ _ _ hp
    have hl_ne : l ≠ [] := by
      intro hl0
      rw [hl0] at hlen
      exact splitSep_ne_nil '|' s (List.length_eq_zero.mp hlen.symm)
    unfold writeFeats
    rw [if_neg hl_ne]
    rw [isortBy_sorted_id ltKeys leKeys ltKeys_leKeys l hs]
    have hrec : l.map avChars = splitSep '|' s := by
      apply optMapM_reconstruct _ _ _ _ hp
      intro a ha p hps
      obtain ⟨p1, p2⟩ := p
      show p1 ++ '=' :: p2 = a
      exact splitFirstCh_reconstruct '=' a p1 p2 hps
    rw [hrec, joinS_splitSep]

theorem parseAVList_writeMisc (s : PStr) (l : List (PStr × PStr))
    (hp : parseAVList s = some l) : writeMisc l = s := by
  unfold parseAVList at hp
  by_cases hu : (s == ps ("_")) = true
  · rw [if_pos hu] at hp
    cases hp
    show ps ("_") = s
    rw [beq_iff_eq.mp hu]
  · rw [if_neg hu] at hp
    have hlen := optMapM_length _ _ _ hp
    have hl_ne : l ≠ [] := by
      intro hl0
      rw [hl0] at hlen
      exact splitSep_ne_nil '|' s (List.length_eq_zero.mp hlen.symm)
    unfold writeMisc
    rw [if_neg hl_ne]
    have hrec : l.map avChars = splitSep '|' s := by
      apply optMapM_reconstruct _ _ _ _ hp
      intro a ha p hps
      obtain ⟨p1, p2⟩ := p
      show p1 ++ '=' :: p2 = a
      exact splitFirstCh_reconstruct '=' a p1 p2 hps
    rw [hrec, joinS_splitSep]

theorem parseDeps_writeDeps (s : PStr) (l : List DepPair)
    (hp : parseDeps s = some l) (hs : strictSortedBy ltDep l = true) :
    writeDeps l = s := by
  unfold parseDeps at hp
  by_cases hu : (s == ps ("_")) = true
  · rw [if_pos hu] at hp
    cases hp
    show ps ("_") = s
    rw [beq_iff_eq.mp hu]
  · rw [if_neg hu] at hp
    have hlen := optMapM_length _ _ _ hp
    have hl_ne : l ≠ [] := by
      intro hl0
      rw [hl0] at hlen
      exact splitSep_ne_nil '|' s (List.length_eq_zero.mp hlen.symm)
    unfold writeDeps
    rw [if_neg hl_ne]
    rw [isortBy_sorted_id ltDep leDep ltDep_leDep l hs]
    have hrec : l.map depChars = splitSep '|' s := by
      apply optMapM_reconstruct _ _ _ _ hp
      intro a ha p hps
      exact parseDep_write a p hps
    rw [hrec, joinS_splitSep]

end Conllu

namespace Conllu

theorem tokLine_round (l : PStr) (h : validTokLine l = true) :
    ∃ t, parseTok l = some t ∧ writeTok t = l := by
  unfold validTokLine at h
  split at h
  · rename_i f1 f2 f3 f4 f5 f6 f7 f8 f9 f10 heq
    simp only [Bool.and_eq_true] at h
    obtain ⟨⟨⟨⟨⟨⟨⟨⟨⟨hid, h2⟩, h3⟩, h4⟩, h5⟩, h8⟩, hfe⟩, hhd⟩, hdp⟩, hmi⟩ := h
    obtain ⟨tid, htid⟩ := Option.isSome_iff_exists.mp hid
    obtain ⟨hed, hhd2⟩ := Option.isSome_iff_exists.mp hhd
    obtain ⟨mi, hmi2⟩ := Option.isSome_iff_exists.mp hmi
    cases hfq : parseAVList f6 with
    | none => rw [hfq] at hfe; exact absurd hfe (by simp)
    | some l6 =>
    simp only [hfq] at hfe
    cases hdq : parseDeps f9 with
    | none => rw [hdq] at hdp; exact absurd hdp (by simp)
    | some l9 =>
    simp only [hdq] at hdp
    refine ⟨⟨tid, usDecode f2, usDecode f3, usDecode f4, usDecode f5, l6, hed,
      usDecode f8, l9, mi⟩, ?_, ?_⟩
    · unfold parseTok
      simp only [heq, htid, hfq, hhd2, hdq, hmi2]
    · unfold writeTok
      rw [parseId_write f1 tid htid,
        us_round f2 (by simpa using h2), us_round f3 (by simpa using h3),
        us_round f4 (by simpa using h4), us_round f5 (by simpa using h5),
        parseAVList_writeFeats f6 l6 hfq hfe, parseHead_write f7 hed hhd2,
        us_round f8 (by simpa using h8), parseDeps_writeDeps f9 l9 hdq hdp,
        parseAVList_writeMisc f10 mi hmi2]
      have hj := joinS_splitSep '\t' l
      rw [heq] at hj
      exact hj
  · exact absurd h (by simp)

theorem chunk_round (c : List PStr) (h : validChunk c = true) :
    ∃ s, parseSent c = some s ∧ writeSent s = c := by
  unfold validChunk at h
  simp only [Bool.and_eq_true] at h
  obtain ⟨⟨hne, hall⟩, hck⟩ := h
  have hsome : ∀ l ∈ c.dropWhile isCommentLine, (parseTok l).isSome := by
    intro l hl
    obtain ⟨t, ht, _⟩ := tokLine_round l (List.all_eq_true.mp hall l hl)
    simp [ht]
  obtain ⟨toks, htoks⟩ := optMapM_some _ _ hsome
  simp only [htoks] at hck
  refine ⟨⟨c.takeWhile isCommentLine, toks⟩, ?_, ?_⟩
  · unfold parseSent
    simp only [htoks]
    rw [if_pos hck]
  · show c.takeWhile isCommentLine ++ toks.map writeTok = c
    have hrec : toks.map writeTok = c.dropWhile isCommentLine := by
      apply optMapM_reconstruct _ _ _ _ htoks
      intro l hl t ht
      obtain ⟨t2, ht2, hw2⟩ := tokLine_round l (List.all_eq_true.mp hall l hl)
      rw [ht] at ht2
      cases ht2
      exact hw2
    rw [hrec, List.takeWhile_append_dropWhile]

end Conllu

namespace Conllu

theorem conllu_round (text : PStr) (h : validConllu text = true) :
    ∃ d, parseConllu text = some d ∧ writeConllu d = text := by
  unfold validConllu at h
  simp only [Bool.and_eq_true] at h
  obtain ⟨⟨hlast, hclast⟩, hall⟩ := h
  have hlast2 : (splitSep '\n' text).getLast? = some ([] : PStr) :=
    beq_iff_eq.mp hlast
  have hclast2 : (splitSep ([] : PStr) (splitSep '\n' text).dropLast).getLast?
      = some ([] : List PStr) := beq_iff_eq.mp hclast
  have hsome : ∀ c ∈ (splitSep ([] : PStr) (splitSep '\n' text).dropLast).dropLast,
      (if c = ([] : List PStr) then none else parseSent c).isSome := by
    intro c hc
    have hv := List.all_eq_true.mp hall c hc
    have hcne : c ≠ ([] : List PStr) := by
      intro h0
      rw [h0] at hv
      simp [validChunk] at hv
    rw [if_neg hcne]
    obtain ⟨s, hs, _⟩ := chunk_round c hv
    simp [hs]
  obtain ⟨sents, hsents⟩ := optMapM_some _ _ hsome
  refine ⟨⟨sents⟩, ?_, ?_⟩
  · unfold parseConllu
    simp only [hlast2, hclast2, hsents, beq_self_eq_true, if_true]
  · show joinS '\n' (joinS ([] : PStr) ((sents.map writeSent) ++ [[]]) ++ [[]]) = text
    have hrec : sents.map writeSent
        = (splitSep ([] : PStr) (splitSep '\n' text).dropLast).dropLast := by
      apply optMapM_reconstruct _ _ _ _ hsents
      intro c hc s hs
      have hv := List.all_eq_true.mp hall c hc
      have hcne : c ≠ ([] : List PStr) := by
        intro h0
        rw [h0] at hv
        simp [validChunk] at hv
      rw [if_neg hcne] at hs
      obtain ⟨s2, hs2, hw2⟩ := chunk_round c hv
      rw [hs] at hs2
      cases hs2
      exact hw2
    rw [hrec, dropLast_append_of_getLast? _ _ hclast2, joinS_splitSep,
      dropLast_append_of_getLast? _ _ hlast2]
    exact joinS_splitSep '\n' text

end Conllu

namespace Document

/-- C2: for every syntactically valid CoNLL-U text with no lossy constructs
(canonical numerals, FEATS already in alphabetic order, DEPS already sorted
— the conditions captured by `Conllu.validConllu`), loading with
`from_conllu_string` succeeds and serializing the resulting document with
`to_conllu_string` returns the input codepoint-for-codepoint. -/
theorem c2_roundtrip (text : PStr) (h : Conllu.validConllu text = true) :
    ∃ d, from_conllu_string text = Except.ok d ∧ to_conllu_string d = text := by
  obtain ⟨cd, hp, hw⟩ := Conllu.conllu_round text h
  refine ⟨⟨cd.sents⟩, ?_, ?_⟩
  · unfold from_conllu_string
    simp only [hp]
  · show Conllu.writeConllu ⟨cd.sents⟩ = text
    cases cd
    exact hw

/-- Witness for C2 at a concrete one-sentence document. -/
theorem c2_roundtrip_witness :
    Conllu.validConllu
      (ps ("# sent_id = 1\n1\ta\ta\tX\t_\t_\t0\troot\t_\t_\n\n")) = true ∧
    ∃ d, from_conllu_string
        (ps ("# sent_id = 1\n1\ta\ta\tX\t_\t_\t0\troot\t_\t_\n\n"))
        = Except.ok d ∧
      to_conllu_string d
        = ps ("# sent_id = 1\n1\ta\ta\tX\t_\t_\t0\troot\t_\t_\n\n") :=
  ⟨rfl, c2_roundtrip _ rfl⟩

end Document

namespace Document

/-- C6: the Document loader dispatches on the filename extension — a path
ending in `.conllu` is read with the CoNLL-U reader, a path ending in
`.txt` with the plain-sentence reader, and any other path fails with the
unsupported-format error, producing no document (hence no bundles). -/
theorem c6_loader_dispatch (f content : PStr) :
    (chEnds (ps (".conllu")) f = true →
      document_init (some f) content = from_conllu_string content) ∧
    (chEnds (ps (".conllu")) f = false → chEnds (ps (".txt")) f = true →
      document_init (some f) content = .ok (sentencesRead content)) ∧
    (chEnds (ps (".conllu")) f = false → chEnds (ps (".txt")) f = false →
      document_init (some f) content = .error .unsupportedFormat ∧
      ∀ d, ¬ document_init (some f) content = .ok d) := by
  refine ⟨?_, ?_, ?_⟩
  · intro h1
    show (if chEnds (ps (".conllu")) f = true then from_conllu_string content
        else if chEnds (ps (".txt")) f = true then .ok (sentencesRead content)
        else .error .unsupportedFormat) = _
    rw [if_pos h1]
  · intro h1 h2
    show (if chEnds (ps (".conllu")) f = true then from_conllu_string content
        else if chEnds (ps (".txt")) f = true then .ok (sentencesRead content)
        else .error .unsupportedFormat) = _
    rw [if_neg (by simp [h1]), if_pos h2]
  · intro h1 h2
    have he : document_init (some f) content = .error .unsupportedFormat := by
      show (if chEnds (ps (".conllu")) f = true then from_conllu_string content
        else if chEnds (ps (".txt")) f = true then .ok (sentencesRead content)
        else .error .unsupportedFormat) = _
      rw [if_neg (by simp [h1]), if_neg (by simp [h2])]
    refine ⟨he, ?_⟩
    intro d hd
    rw [he] at hd
    exact Except.noConfusion hd

/-- Witness for C6 at three concrete filenames. -/
theorem c6_loader_dispatch_witness :
    document_init (some (ps ("a.conllu"))) (ps ("x"))
      = from_conllu_string (ps ("x")) ∧
    document_init (some (ps ("b.txt"))) (ps ("x"))
      = .ok (sentencesRead (ps ("x"))) ∧
    document_init (some (ps ("c.json"))) (ps ("x"))
      = .error .unsupportedFormat :=
  ⟨(c6_loader_dispatch (ps ("a.conllu")) (ps ("x"))).1 rfl,
   (c6_loader_dispatch (ps ("b.txt")) (ps ("x"))).2.1 rfl rfl,
   ((c6_loader_dispatch (ps ("c.json")) (ps ("x"))).2.2 rfl rfl).1⟩

end Document
